import Mathlib

/-!
# gliden64_texstream_extract: extraction pipeline

A shallow embedding of `src/input_file.c` (byte reader and record decoder)
and of `convert_input` / `main` in `src/gliden64_texstream_extract.c`
(header check, index walk, end-of-archive blocks), followed by the theorems
that settle the specification's claims about them.

The input stream is an in-memory file: a byte list and a cursor.  Everything
the program does to the outside world (allocation, release, the image
preparer, the entry writer, the tar block writer) is recorded, in order, in a
trace of events carried by the state.  The collaborators that are not part of
the two source files are fields of `Env`.
-/

namespace TexStream

/-! ## Data model -/

/-- One byte of the input or output stream. -/
abbrev Byte := Fin 256

/-- The value of `EIO` in `<errno.h>`. -/
def EIO : Int := 5

/-- The value of `ENOMEM` in `<errno.h>`. -/
def ENOMEM : Int := 12

/-- The value of `EINVAL` in `<errno.h>`. -/
def EINVAL : Int := 22

/-- The record `struct gliden64_file` filled by `convert_file`: the checksum
carried from the index entry, the seven header fields and the payload. -/
structure gliden64_file where
  checksum : Nat
  width : Nat
  height : Nat
  format : Nat
  texture_format : Nat
  pixel_type : Nat
  is_hires_tex : Nat
  size : Nat
  data : List Byte
  deriving DecidableEq, Repr

/-- What the program does to the outside world, in the order it happens. -/
inductive Event where
  /-- `convert_file(pos, checksum)` was entered. -/
  | convert (pos : Int) (checksum : Nat)
  /-- `malloc(size)` was called; `ok` tells whether it returned a buffer. -/
  | malloc (size : Nat) (ok : Bool)
  /-- `free(file.data)` was called. -/
  | free
  /-- `prepare_file(&file)` was called with `file` and returned `ret`. -/
  | prepare (file : gliden64_file) (ret : Int)
  /-- `write_file(&file)` was called with `file` and returned `ret`. -/
  | write (file : gliden64_file) (ret : Int)
  /-- `write_tarblock` was called, handing `block` to the output, and returned `ret`. -/
  | tarblock (block : List Byte) (ret : Int)
  deriving DecidableEq, Repr

/-- The run state: the bytes of `globals.in`, its cursor, and the trace of
external effects so far (oldest first). -/
structure State where
  input : List Byte
  pos : Nat
  trace : List Event
  deriving DecidableEq, Repr

/-- The fields of `globals` that the extraction pipeline consults. -/
structure Globals where
  verbose : Nat
  ignore_error : Bool
  bitmapv5 : Bool
  deriving DecidableEq, Repr

/-- The collaborators and constants that the two source files use but do not
define.  The outcome of an external call may depend on everything that
happened before it, so each collaborator receives the trace so far. -/
structure Env where
  /-- Whether the host stores integers most significant byte first. -/
  big_endian : Bool
  /-- The constant `FILE_CACHE_MASK` of the header file. -/
  FILE_CACHE_MASK : Nat
  /-- The constant `sizeof(tarblock)` of the header file. -/
  TARBLOCKSIZE : Nat
  /-- The contents of the global buffer `tarblock` at a given point of the run. -/
  tarblock : List Event → List Byte
  /-- The result of `parse_config(config)`. -/
  parse_config : Nat → Int
  /-- Whether `malloc(size)` returns a buffer. -/
  malloc : List Event → Nat → Bool
  /-- The result of `prepare_file(&file)` and the record it leaves behind. -/
  prepare_file : List Event → gliden64_file → Int × gliden64_file
  /-- The result of `write_file(&file)`. -/
  write_file : List Event → gliden64_file → Int
  /-- The result of the output write inside `write_tarblock`. -/
  write_block : List Event → List Byte → Int

/-! ## Integers in memory -/

/-- The little-endian value of a byte sequence: the sum of `b_i * 256^i`. -/
def le_value : List Byte → Nat
  | [] => 0
  | b :: bs => b.val + 256 * le_value bs

/-- The `width` low-order bytes of `v`, least significant first. -/
def to_le_bytes : Nat → Nat → List Byte
  | 0, _ => []
  | w + 1, v => ⟨v % 256, Nat.mod_lt _ (by decide)⟩ :: to_le_bytes w (v / 256)

/-- The unsigned integer the host sees when it loads `bytes` from memory. -/
def host_load (big_endian : Bool) (bytes : List Byte) : Nat :=
  if big_endian then le_value bytes.reverse else le_value bytes

/-- Reversal of the byte order of a `width`-byte integer. -/
def bswap (width v : Nat) : Nat :=
  le_value (to_le_bytes width v).reverse

/-- The library conversions `le16toh`, `le32toh`, `le64toh` (for `width` 2, 4, 8):
the identity on a little-endian host, a byte swap on a big-endian one. -/
def le_to_host (big_endian : Bool) (width v : Nat) : Nat :=
  if big_endian then bswap width v else v

/-- Conversion of an unsigned 64-bit value to `long` (64-bit two's complement). -/
def to_long (v : Nat) : Int :=
  if v % 2 ^ 64 < 2 ^ 63 then ((v % 2 ^ 64 : Nat) : Int) else ((v % 2 ^ 64 : Nat) : Int) - 2 ^ 64

/-! ## The input stream -/

/-- The library call `fread(buffer, 1, size, globals.in)`: the bytes read (all
that are left when fewer than `size` remain) and the advanced cursor. -/
def fread (size : Nat) (s : State) : List Byte × State :=
  let got := (s.input.drop s.pos).take size
  (got, { s with pos := s.pos + got.length })

/-- The library call `fseek(globals.in, offset, SEEK_SET)` on a regular file: a
negative offset is rejected with -1 and the cursor stays; any other offset
becomes the cursor, also past the end of the file.  The limit a file system
puts on offsets is not modelled; a seek within the stream never meets it, and
for an offset past the end of the stream the theorems on the claims only use
that the decode fails, which holds whether such a seek is rejected or the
read after it comes up short. -/
def fseek (offset : Int) (s : State) : Int × State :=
  if offset < 0 then (-1, s) else (0, { s with pos := offset.toNat })

/-- The library call `ftell(globals.in)`: the cursor, or -1 when it does not fit a `long`. -/
def ftell (s : State) : Int :=
  if s.pos < 2 ^ 63 then (s.pos : Int) else -1

/-! ## `src/input_file.c` -/

/-- The function `get_buffer`: read `size` bytes; a short read is `-EIO`.
The flag `print_error` only selects diagnostics and is left out. -/
def get_buffer (size : Nat) (s : State) : Int × List Byte × State :=
  let (buf, s) := fread size s
  if buf.length = size then (0, buf, s) else (- EIO, buf, s)

/-- The function `get_buffer_endian`: read `size` bytes and convert the item
from little-endian to host order.  The second component is the value the
caller's variable holds afterwards; it is meaningful only when the result is
0 (on failure the variable is left partly written and callers do not use it). -/
def get_buffer_endian (env : Env) (size : Nat) (s : State) : Int × Nat × State :=
  let (ret, buf, s) := get_buffer size s
  if ret < 0 then (ret, 0, s) else
  match size with
  | 1 => (0, host_load env.big_endian buf, s)
  | 2 => (0, le_to_host env.big_endian 2 (host_load env.big_endian buf), s)
  | 4 => (0, le_to_host env.big_endian 4 (host_load env.big_endian buf), s)
  | 8 => (0, le_to_host env.big_endian 8 (host_load env.big_endian buf), s)
  | _ => (- EINVAL, 0, s)

/-- Modelled from the spec: the macro `get_item(item)` is declared in the header
file, which is not among the sources; it reads one field of the width of
`item` through the byte reader `get_buffer_endian`, with diagnostics on. -/
def get_item (env : Env) (width : Nat) (s : State) : Int × Nat × State :=
  get_buffer_endian env width s

/-- Append one event to the trace. -/
def log (e : Event) (s : State) : State :=
  { s with trace := s.trace ++ [e] }

/-- The function `convert_file`: seek to the record, read its header and
payload, hand it to the preparer and then to the entry writer. -/
def convert_file (env : Env) (g : Globals) (pos : Int) (checksum : Nat) (s : State) :
    Int × State :=
  let s := log (.convert pos checksum) s
  let (ret, s) := fseek pos s
  if ret < 0 then (ret, s) else
  let (ret, width, s) := get_item env 4 s
  if ret < 0 then (ret, s) else
  let (ret, height, s) := get_item env 4 s
  if ret < 0 then (ret, s) else
  let (ret, format, s) := get_item env 4 s
  if ret < 0 then (ret, s) else
  let (ret, texture_format, s) := get_item env 2 s
  if ret < 0 then (ret, s) else
  let (ret, pixel_type, s) := get_item env 2 s
  if ret < 0 then (ret, s) else
  let (ret, is_hires_tex, s) := get_item env 1 s
  if ret < 0 then (ret, s) else
  let (ret, size, s) := get_item env 4 s
  if ret < 0 then (ret, s) else
  if size ≤ 0 then (ret, s) else
  let ok := env.malloc s.trace size
  let s := log (.malloc size ok) s
  if !ok then (- ENOMEM, s) else
  let (ret, data, s) := get_buffer size s
  if ret < 0 then (ret, log .free s) else
  let file : gliden64_file :=
    { checksum := checksum, width := width, height := height, format := format,
      texture_format := texture_format, pixel_type := pixel_type,
      is_hires_tex := is_hires_tex, size := size, data := data }
  let (ret, file') := env.prepare_file s.trace file
  let s := log (.prepare file ret) s
  if ret < 0 then
    let s := log .free s
    if g.ignore_error then (0, s) else (ret, s)
  else
  let ret := env.write_file s.trace file'
  let s := log (.write file' ret) s
  let s := log .free s
  if ret < 0 then (ret, s) else
  (0, s)

/-! ## `src/gliden64_texstream_extract.c` -/

/-- Modelled from the spec: `write_tarblock(buffer, size, offset)` is not among
the sources; it appends one block of `size` bytes to the output, the first
`offset` bytes taken from `buffer` and the rest zero-filled, and reports the
result of that write. -/
def write_tarblock (env : Env) (buffer : List Byte) (size offset : Nat) (s : State) :
    Int × State :=
  let block := buffer.take offset ++ List.replicate (size - offset) (0 : Byte)
  let ret := env.write_block s.trace block
  (ret, log (.tarblock block ret) s)

/-- One pass through the body of the `for` loop of `convert_input`: `some ret`
when the body executes `return ret`, `none` when it reaches its end. -/
def index_entry (env : Env) (g : Globals) (s : State) : Option Int × State :=
  let (ret, checksum, s) := get_item env 8 s
  if ret < 0 then (some (- EINVAL), s) else
  let (ret, texpos, s) := get_item env 8 s
  if ret < 0 then (some (- EINVAL), s) else
  let pos := ftell s
  if pos < 0 then (some (- EINVAL), s) else
  let (ret, s) := convert_file env g (to_long texpos) checksum s
  if ret < 0 then (some ret, s) else
  let (ret, s) := fseek pos s
  if ret < 0 then (some ret, s) else
  (none, s)

/-- The `for` loop of `convert_input` with `remaining = storage_size - i`
passes still to run: `some ret` when a pass returns, `none` when the loop ends. -/
def index_loop (env : Env) (g : Globals) : Nat → State → Option Int × State
  | 0, s => (none, s)
  | remaining + 1, s =>
    match index_entry env g s with
    | (some ret, s) => (some ret, s)
    | (none, s) => index_loop env g remaining s

/-- The function `convert_input`: header check, index walk, two end-of-archive blocks. -/
def convert_input (env : Env) (g : Globals) (s : State) : Int × State :=
  let (ret, config, s) := get_item env 4 s
  if ret < 0 then (ret, s) else
  let ret := env.parse_config config
  if ret < 0 then (ret, s) else
  if config &&& env.FILE_CACHE_MASK = 0 then (ret, s) else
  let (ret, storage_pos, s) := get_item env 8 s
  if ret < 0 then (- EINVAL, s) else
  let (ret, s) := fseek (to_long storage_pos) s
  if ret < 0 then (ret, s) else
  let (ret, storage_size, s) := get_item env 4 s
  if ret < 0 then (- EINVAL, s) else
  match index_loop env g storage_size s with
  | (some ret, s) => (ret, s)
  | (none, s) =>
    let (ret, s) := write_tarblock env (env.tarblock s.trace) env.TARBLOCKSIZE 0 s
    if ret < 0 then (ret, s) else
    let (ret, s) := write_tarblock env (env.tarblock s.trace) env.TARBLOCKSIZE 0 s
    if ret < 0 then (ret, s) else
    (0, s)

/-- The function `main` after option parsing: `init_ret` is what `init`
returned and `g` the globals it set up.  The result is the process outcome. -/
def main (env : Env) (init_ret : Int) (g : Globals) (s : State) : Int × State :=
  if init_ret < 0 then (1, s) else
  let (ret, s) := convert_input env g s
  if ret < 0 then (2, s) else
  (0, s)

/-! ## Reading the container: closed forms

The definitions below say, in terms of the container's bytes alone, what the
record decoder and one pass of the index walk compute.  The theorems
`convert_file_eq_closed` and `index_entry_eq_closed` prove that the functions
embedded from the source agree with them on every input. -/

/-- The unsigned little-endian integer held by the `w` bytes at offset `p` of `input`. -/
def field (input : List Byte) (p w : Nat) : Nat :=
  le_value ((input.drop p).take w)

/-- The record whose header starts at offset `p` of `input`, with the fields in
the order `convert_file` reads them and the payload that follows the header. -/
def record_at (input : List Byte) (checksum p : Nat) : gliden64_file :=
  { checksum := checksum
    width := field input p 4
    height := field input (p + 4) 4
    format := field input (p + 8) 4
    texture_format := field input (p + 12) 2
    pixel_type := field input (p + 14) 2
    is_hires_tex := field input (p + 16) 1
    size := field input (p + 17) 4
    data := (input.drop (p + 21)).take (field input (p + 17) 4) }

/-- What `convert_file` computes, by cases on the container's bytes. -/
def convert_file_closed (env : Env) (g : Globals) (pos : Int) (checksum : Nat) (s : State) :
    Int × State :=
  let tr1 := s.trace ++ [Event.convert pos checksum]
  if pos < 0 then (-1, ⟨s.input, s.pos, tr1⟩) else
  let p := pos.toNat
  if s.input.length < p + 21 then (- EIO, ⟨s.input, max p s.input.length, tr1⟩) else
  let file := record_at s.input checksum p
  if file.size = 0 then (0, ⟨s.input, p + 21, tr1⟩) else
  if env.malloc tr1 file.size = false then
    (- ENOMEM, ⟨s.input, p + 21, tr1 ++ [Event.malloc file.size false]⟩) else
  let tr2 := tr1 ++ [Event.malloc file.size true]
  if s.input.length < p + 21 + file.size then
    (- EIO, ⟨s.input, s.input.length, tr2 ++ [Event.free]⟩) else
  let prepared := env.prepare_file tr2 file
  let tr3 := tr2 ++ [Event.prepare file prepared.1]
  if prepared.1 < 0 then
    (if g.ignore_error then 0 else prepared.1,
      ⟨s.input, p + 21 + file.size, tr3 ++ [Event.free]⟩) else
  let written := env.write_file tr3 prepared.2
  (if written < 0 then written else 0,
    ⟨s.input, p + 21 + file.size, tr3 ++ [Event.write prepared.2 written, Event.free]⟩)

/-- What one pass of the index walk computes, by cases on the container's bytes. -/
def index_entry_closed (env : Env) (g : Globals) (s : State) : Option Int × State :=
  if s.input.length < s.pos + 16 then
    (some (- EINVAL), ⟨s.input, max s.pos s.input.length, s.trace⟩) else
  if 2 ^ 63 ≤ s.pos + 16 then (some (- EINVAL), ⟨s.input, s.pos + 16, s.trace⟩) else
  let checksum := field s.input s.pos 8
  let texpos := field s.input (s.pos + 8) 8
  let r := convert_file_closed env g (to_long texpos) checksum ⟨s.input, s.pos + 16, s.trace⟩
  if r.1 < 0 then (some r.1, r.2) else (none, ⟨s.input, s.pos + 16, r.2.trace⟩)

/-- The end of `convert_input`: the walk's early return, or the two
end-of-archive blocks. -/
def convert_input_tail (env : Env) (walk : Option Int × State) : Int × State :=
  match walk with
  | (some ret, s) => (ret, s)
  | (none, s) =>
    let b1 := write_tarblock env (env.tarblock s.trace) env.TARBLOCKSIZE 0 s
    if b1.1 < 0 then b1 else
    let b2 := write_tarblock env (env.tarblock b1.2.trace) env.TARBLOCKSIZE 0 b1.2
    if b2.1 < 0 then b2 else
    (0, b2.2)

/-- What `convert_input` computes, by cases on the container's bytes. -/
def convert_input_closed (env : Env) (g : Globals) (s : State) : Int × State :=
  if s.input.length < s.pos + 4 then (- EIO, ⟨s.input, max s.pos s.input.length, s.trace⟩) else
  let config := field s.input s.pos 4
  if env.parse_config config < 0 then (env.parse_config config, ⟨s.input, s.pos + 4, s.trace⟩) else
  if config &&& env.FILE_CACHE_MASK = 0 then
    (env.parse_config config, ⟨s.input, s.pos + 4, s.trace⟩) else
  if s.input.length < s.pos + 12 then (- EINVAL, ⟨s.input, s.input.length, s.trace⟩) else
  let storage_pos := field s.input (s.pos + 4) 8
  if 2 ^ 63 ≤ storage_pos then (-1, ⟨s.input, s.pos + 12, s.trace⟩) else
  if s.input.length < storage_pos + 4 then
    (- EINVAL, ⟨s.input, max storage_pos s.input.length, s.trace⟩) else
  convert_input_tail env
    (index_loop env g (field s.input storage_pos 4) ⟨s.input, storage_pos + 4, s.trace⟩)

/-- The offset of the index table: the 64-bit field after the config word. -/
def table_pos (input : List Byte) : Nat :=
  field input 4 8

/-- The number of index entries: the 32-bit field at the start of the index table. -/
def entry_count (input : List Byte) : Nat :=
  field input (table_pos input) 4

/-- The header of the container is readable and accepted: config word and index
offset present, `parse_config` succeeds, a capability bit is set, and the
entry count can be reached and read. -/
def header_ok (env : Env) (input : List Byte) : Prop :=
  12 ≤ input.length ∧ 0 ≤ env.parse_config (field input 0 4) ∧
  field input 0 4 &&& env.FILE_CACHE_MASK ≠ 0 ∧
  table_pos input < 2 ^ 63 ∧ table_pos input + 4 ≤ input.length

/-- The record at offset `texpos` is fully readable: the offset fits a `long`,
header and payload lie inside the container, and the payload size is positive. -/
def record_readable (input : List Byte) (texpos : Nat) : Prop :=
  texpos < 2 ^ 63 ∧ texpos + 21 ≤ input.length ∧ 0 < field input (texpos + 17) 4 ∧
  texpos + 21 + field input (texpos + 17) 4 ≤ input.length

/-- A valid container: shorter than 2^63 bytes, header accepted, the whole index
table readable, and the record of every index entry fully readable. -/
def container_valid (env : Env) (input : List Byte) : Prop :=
  input.length < 2 ^ 63 ∧ header_ok env input ∧
  table_pos input + 4 + 16 * entry_count input ≤ input.length ∧
  ∀ i, i < entry_count input →
    record_readable input (field input (table_pos input + 4 + 8 + 16 * i) 8)

/-- The trace at the moment `convert_file` calls the preparer for the readable
record at offset `t`: the trace before the call, the call itself and the
successful allocation of the payload buffer. -/
def trace_at_prepare (input : List Byte) (tr : List Event) (checksum t : Nat) : List Event :=
  tr ++ [Event.convert (t : Int) checksum, Event.malloc (field input (t + 17) 4) true]

/-- The result of the preparer on the readable record at offset `t`. -/
def prepare_result (env : Env) (input : List Byte) (tr : List Event) (checksum t : Nat) : Int :=
  (env.prepare_file (trace_at_prepare input tr checksum t) (record_at input checksum t)).1

/-- The trace after `convert_file` has handled a failed preparation of the
record at offset `t`: the call, the allocation, the preparer call and the
release of the buffer. -/
def trace_after_failed_prepare (env : Env) (input : List Byte) (tr : List Event)
    (checksum t : Nat) : List Event :=
  trace_at_prepare input tr checksum t ++
    [Event.prepare (record_at input checksum t) (prepare_result env input tr checksum t),
      Event.free]

instance (env : Env) (input : List Byte) : Decidable (header_ok env input) := by
  unfold header_ok
  infer_instance

instance (input : List Byte) (texpos : Nat) : Decidable (record_readable input texpos) := by
  unfold record_readable
  infer_instance

instance (env : Env) (input : List Byte) : Decidable (container_valid env input) := by
  unfold container_valid
  infer_instance

/-- The number of calls of `convert_file` in a trace. -/
def records_decoded : List Event → Nat
  | [] => 0
  | Event.convert _ _ :: tr => records_decoded tr + 1
  | _ :: tr => records_decoded tr

/-- The number of archive entries handed to the entry writer in a trace. -/
def entries_written : List Event → Nat
  | [] => 0
  | Event.write _ _ :: tr => entries_written tr + 1
  | _ :: tr => entries_written tr

/-- The number of calls of the preparer in a trace that returned a negative result. -/
def preparations_failed : List Event → Nat
  | [] => 0
  | Event.prepare _ ret :: tr => preparations_failed tr + (if ret < 0 then 1 else 0)
  | _ :: tr => preparations_failed tr

/-- The number of records skipped under `ignore_error`: the failed preparations
when the switch is set, none when it is clear. -/
def records_skipped (g : Globals) (tr : List Event) : Nat :=
  if g.ignore_error then preparations_failed tr else 0

/-! ## Sample containers -/

/-- The bytes of one record: seven header fields and the payload. -/
def sample_record (width height format texture_format pixel_type is_hires_tex size : Nat)
    (payload : List Byte) : List Byte :=
  to_le_bytes 4 width ++ to_le_bytes 4 height ++ to_le_bytes 4 format ++
    to_le_bytes 2 texture_format ++ to_le_bytes 2 pixel_type ++ to_le_bytes 1 is_hires_tex ++
    to_le_bytes 4 size ++ payload

/-- A container of 93 bytes: the config word, the index offset 57, a record of
two payload bytes at offset 12, a record with one payload byte and the given
format and size field at offset 35, and at offset 57 an index of two entries that
lists the second record first. -/
def sample_container (config format_b size_b : Nat) : List Byte :=
  to_le_bytes 4 config ++ to_le_bytes 8 57 ++
    sample_record 2 1 0 3 4 1 2 [0xAA, 0xBB] ++
    sample_record 1 1 format_b 3 4 0 size_b [0xCC] ++
    to_le_bytes 4 2 ++
    to_le_bytes 8 0x1111 ++ to_le_bytes 8 35 ++
    to_le_bytes 8 0x2222 ++ to_le_bytes 8 12

/-- Collaborators for the sample runs: capability mask 1, blocks of 512 bytes, a
config parser and an allocator that always succeed, a preparer that accepts
exactly the records of format 0, and writers that return `write_ret`. -/
def sample_env (big_endian : Bool) (write_ret : Int) : Env where
  big_endian := big_endian
  FILE_CACHE_MASK := 1
  TARBLOCKSIZE := 512
  tarblock := fun _ => []
  parse_config := fun _ => 0
  malloc := fun _ _ => true
  prepare_file := fun _ f => if f.format = 0 then (0, f) else (-22, f)
  write_file := fun _ _ => write_ret
  write_block := fun _ _ => write_ret

/-- The start of a run on `input`: cursor at offset 0, nothing done yet. -/
def start (input : List Byte) : State :=
  ⟨input, 0, []⟩

/-- Bookkeeping of payload buffers along a trace, starting with `live` buffers:
a successful `malloc` needs that no buffer is live and makes one live, a `free`
needs a live buffer and releases it; the result is the number of live buffers
at the end, or `none` when a second buffer would be live or a release has no
buffer to release. -/
def track_buffers : Nat → List Event → Option Nat
  | live, [] => some live
  | live, Event.malloc _ true :: tr => if live = 0 then track_buffers 1 tr else none
  | live, Event.free :: tr => if live = 0 then none else track_buffers (live - 1) tr
  | live, _ :: tr => track_buffers live tr

/-- The calls of `convert_file` recorded in a trace, in order: the position and
the checksum passed. -/
def decode_calls : List Event → List (Int × Nat)
  | [] => []
  | Event.convert pos checksum :: tr => (pos, checksum) :: decode_calls tr
  | _ :: tr => decode_calls tr

/-- The arguments of `convert_file` for the first `j` entries of an index table
whose entries start at offset `p`, in index order: for entry `i` the record
offset read at `p + 8 + 16 * i`, converted to `long`, and the checksum read at
`p + 16 * i`. -/
def index_calls (input : List Byte) (p j : Nat) : List (Int × Nat) :=
  (List.range j).map
    (fun i => (to_long (field input (p + 8 + 16 * i) 8), field input (p + 16 * i) 8))


/-- The events of a pass of the index walk that reaches its end, for the entry
with checksum `c` and record offset `t`, when `tr` is the trace before the
pass: the call alone for a record of size 0; call, allocation, preparer call
and release for a record whose preparation failed; and call, allocation,
preparer call, writer call and release for a record that was prepared. -/
def completed_pass_events (env : Env) (input : List Byte) (tr : List Event) (c t : Nat) :
    List Event :=
  let file := record_at input c t
  if file.size = 0 then [Event.convert (t : Int) c] else
  let tr2 := tr ++ [Event.convert (t : Int) c, Event.malloc file.size true]
  let prepared := env.prepare_file tr2 file
  if prepared.1 < 0 then
    [Event.convert (t : Int) c, Event.malloc file.size true,
      Event.prepare file prepared.1, Event.free]
  else
    [Event.convert (t : Int) c, Event.malloc file.size true,
      Event.prepare file prepared.1,
      Event.write prepared.2 (env.write_file (tr2 ++ [Event.prepare file prepared.1]) prepared.2),
      Event.free]

/-- The events of `k` passes that reach their end, over the entries that start
at offset `p`, when `tr` is the trace before the first of them. -/
def completed_walk_events (env : Env) (input : List Byte) : Nat → Nat → List Event → List Event
  | 0, _, _ => []
  | k + 1, p, tr =>
    completed_pass_events env input tr (field input p 8) (field input (p + 8) 8) ++
      completed_walk_events env input k (p + 16)
        (tr ++ completed_pass_events env input tr (field input p 8) (field input (p + 8) 8))

/-- The archive entries in the output: the records of the writer calls in a
trace that did not fail, in order. -/
def archive_entries : List Event → List gliden64_file
  | [] => []
  | Event.write file ret :: tr =>
    if ret < 0 then archive_entries tr else file :: archive_entries tr
  | _ :: tr => archive_entries tr

/-- The archive entries of the successfully prepared and written records among
the `k` index entries that start at offset `p`, in index order: an entry
contributes the record the preparer left when its size is not 0, its
preparation did not fail and the writer call did not fail. -/
def expected_entries (env : Env) (input : List Byte) : Nat → Nat → List Event →
    List gliden64_file
  | 0, _, _ => []
  | k + 1, p, tr =>
    let c := field input p 8
    let t := field input (p + 8) 8
    let file := record_at input c t
    let tr2 := tr ++ [Event.convert (t : Int) c, Event.malloc file.size true]
    let prepared := env.prepare_file tr2 file
    let written := env.write_file (tr2 ++ [Event.prepare file prepared.1]) prepared.2
    (if file.size ≠ 0 ∧ 0 ≤ prepared.1 ∧ 0 ≤ written then [prepared.2] else []) ++
      expected_entries env input k (p + 16) (tr ++ completed_pass_events env input tr c t)


/-- The sample container with the entry count raised to 3 although its index
holds two entries: the third index entry lies past the end of the container. -/
def sample_container_short_index : List Byte :=
  (sample_container 1 0 1).take 57 ++ to_le_bytes 4 3 ++ (sample_container 1 0 1).drop 61


/-! ## Option parsing: `init` -/

/-- The value of `ENOENT` in `<errno.h>`. -/
def ENOENT : Int := 2

/-- A C string: its characters without the terminating zero. -/
abbrev CString := List Char

/-- One row of the table `long_options` in `init`: the name of the long option,
whether it takes an argument (`required_argument` or `no_argument`), and the
value `getopt_long` returns for it. -/
structure long_option where
  name : CString
  has_arg : Bool
  val : Char
  deriving DecidableEq, Repr

/-- The table `long_options` of `init`, row by row as in the source. -/
def long_options : List long_option :=
  [ ⟨"verbose".toList, false, 'v'⟩,
    ⟨"prefix".toList, true, 'p'⟩,
    ⟨"type".toList, true, 'p'⟩,
    ⟨"help".toList, false, 'h'⟩,
    ⟨"ignore-error".toList, false, 'e'⟩,
    ⟨"bitmapv5".toList, false, 'b'⟩,
    ⟨"input".toList, true, 'i'⟩,
    ⟨"output".toList, true, 'o'⟩ ]

/-- The short option string passed to `getopt_long` by `init`. -/
def optstring : CString := "vp:t:ebhi:o:".toList

/-- Look a short option up in an option string: `none` when it is not there,
otherwise whether a colon follows it (the option takes an argument). -/
def short_has_arg : CString → Char → Option Bool
  | [], _ => none
  | c :: rest, o =>
    if c = o ∧ c ≠ ':' then some (rest.head? = some ':') else short_has_arg rest o

/-- Split the text after `--` at the first `=`: the option name and, when
there is an `=`, the argument that follows it. -/
def split_eq : CString → CString × Option CString
  | [] => ([], none)
  | c :: cs =>
    if c = '=' then ([], some cs) else ((c :: (split_eq cs).1), (split_eq cs).2)

/-- The part of `getopt_long` that handles a long option: `name` is the text
after `--` and `rest` the arguments that follow.  The option is looked up by
its full name; `--name value` and `--name=value` are both accepted; the result
is the value of the option's row (`?` for an unknown option, a missing
argument or an argument that is not allowed), `optarg`, and the arguments left. -/
def scan_long (longopts : List long_option) (name : CString) (rest : List CString) :
    Char × CString × List CString :=
  match longopts.find? (fun opt => opt.name = (split_eq name).1) with
  | none => ('?', [], rest)
  | some opt =>
    if opt.has_arg then
      match (split_eq name).2, rest with
      | some value, _ => (opt.val, value, rest)
      | none, next :: rest' => (opt.val, next, rest')
      | none, [] => ('?', [], [])
    else
      match (split_eq name).2 with
      | some _ => ('?', [], rest)
      | none => (opt.val, [], rest)

/-- The part of `getopt_long` that handles a short option `c` followed in its
cluster by `more`: the rest of a cluster scanned in part is kept as `-` and
the characters left; an option with argument takes the rest of the cluster or,
when that is empty, the next argument. -/
def scan_short (shortopts : CString) (c : Char) (more : CString) (rest : List CString) :
    Char × CString × List CString :=
  match short_has_arg shortopts c with
  | none => ('?', [], if more = [] then rest else ('-' :: more) :: rest)
  | some false => (c, [], if more = [] then rest else ('-' :: more) :: rest)
  | some true =>
    if more ≠ [] then (c, more, rest)
    else
      match rest with
      | next :: rest' => (c, next, rest')
      | [] => ('?', [], [])

/-- The library call `getopt_long` on the arguments not yet scanned: `none`
when it returns -1, otherwise the option character returned, `optarg`, and the
arguments left.  An argument that is no option is passed over, and `--` ends
the options. -/
def getopt_long (shortopts : CString) (longopts : List long_option) :
    List CString → Option (Char × CString × List CString)
  | [] => none
  | arg :: rest =>
    match arg with
    | c0 :: c1 :: more =>
      if c0 = '-' then
        if c1 = '-' then
          if more = [] then none else some (scan_long longopts more rest)
        else some (scan_short shortopts c1 more rest)
      else getopt_long shortopts longopts rest
    | _ => getopt_long shortopts longopts rest

/-- The library call `strcasecmp(a, b)` as far as `init` uses it: 0 when the
strings are equal up to the case of their letters, non-zero otherwise. -/
def strcasecmp (a b : CString) : Int :=
  if a.map Char.toLower = b.map Char.toLower then 0 else 1

/-- The stream `globals.out`: the standard output, a file opened by `init`,
or `NULL` after a failed `fopen`. -/
inductive out_stream where
  | stdout
  | file (name : CString)
  | null
  deriving DecidableEq, Repr

/-- The whole of `struct _globals` as `init` fills it: verbosity, file-name
prefix (`none` for `NULL`), input type, the two switches, the name of the
open input file (`none` for `NULL`), and the output stream. -/
structure all_globals where
  verbose : Nat
  prefix_name : Option CString
  type : Nat
  ignore_error : Bool
  bitmapv5 : Bool
  in_file : Option CString
  out_file : out_stream
  deriving DecidableEq, Repr

/-- What `init` depends on besides its arguments: the values of the
enumerators `INPUT_HIRES` and `INPUT_TEX` of the header file, whether `strdup`
returns a copy, and whether `fopen` opens a file for reading or writing. -/
structure InitEnv where
  INPUT_HIRES : Nat
  INPUT_TEX : Nat
  strdup : CString → Bool
  fopen_read : CString → Bool
  fopen_write : CString → Bool

/-- How a call of `init` ends: it returns `ret`, or it ends the process with
`exit(status)`. -/
inductive init_result where
  | returned (ret : Int) (globals : all_globals)
  | exited (status : Int) (globals : all_globals)
  deriving DecidableEq, Repr

/-- The state of `globals` after the two `memset` calls and the assignments
that open `init`. -/
def globals_zero : all_globals :=
  ⟨0, none, 0, false, false, none, out_stream.stdout⟩

/-- The `while` loop of `init` and the check that follows it, with `fuel`
bounding the number of `getopt_long` calls; `none` when the fuel runs out. -/
def init_loop (ienv : InitEnv) : Nat → List CString → all_globals → Option init_result
  | 0, _, _ => none
  | fuel + 1, argv, globals =>
    match getopt_long optstring long_options argv with
    | none =>
      if globals.in_file = none then some (.returned (- EINVAL) globals)
      else some (.returned 0 globals)
    | some (o, optarg, rest) =>
      match o with
      | 'v' => init_loop ienv fuel rest { globals with verbose := globals.verbose + 1 }
      | 'p' =>
        if ienv.strdup optarg then
          init_loop ienv fuel rest { globals with prefix_name := some optarg }
        else some (.returned (- ENOMEM) { globals with prefix_name := none })
      | 'h' => some (.exited 0 globals)
      | 't' =>
        if strcasecmp optarg "hires".toList = 0 then
          init_loop ienv fuel rest { globals with type := ienv.INPUT_HIRES }
        else if strcasecmp optarg "tex".toList = 0 then
          init_loop ienv fuel rest { globals with type := ienv.INPUT_TEX }
        else some (.returned (- EINVAL) globals)
      | 'e' => init_loop ienv fuel rest { globals with ignore_error := true }
      | 'b' => init_loop ienv fuel rest { globals with bitmapv5 := true }
      | 'i' =>
        if ienv.fopen_read optarg then
          init_loop ienv fuel rest { globals with in_file := some optarg }
        else some (.returned (- ENOENT) { globals with in_file := none })
      | 'o' =>
        if ienv.fopen_write optarg then
          init_loop ienv fuel rest { globals with out_file := out_stream.file optarg }
        else some (.returned (- ENOENT) { globals with out_file := out_stream.null })
      | _ => some (.returned (- EINVAL) globals)

/-- The size of an argument list: one more than its length for each argument. -/
def argv_size : List CString → Nat
  | [] => 0
  | arg :: rest => arg.length + 1 + argv_size rest

/-- The function `init` on the argument vector `argv` (program name first):
`getopt_long` scans from the second element on, and each of its calls consumes
part of the arguments, so their size bounds the number of calls. -/
def init (ienv : InitEnv) (argv : List CString) : Option init_result :=
  init_loop ienv (argv_size argv.tail + 1) argv.tail globals_zero

/-- Collaborators for sample runs of `init`: `INPUT_HIRES = 0`, `INPUT_TEX = 1`,
and `strdup` and `fopen` never failing. -/
def sample_init_env : InitEnv :=
  ⟨0, 1, fun _ => true, fun _ => true, fun _ => true⟩

/-! ## The records of a container, entry by entry -/

/-- The checksum of index entry `i`: the 64-bit field at the start of the entry. -/
def entry_checksum (input : List Byte) (i : Nat) : Nat :=
  field input (table_pos input + 4 + 16 * i) 8

/-- The record offset of index entry `i`: the 64-bit field after its checksum. -/
def entry_offset (input : List Byte) (i : Nat) : Nat :=
  field input (table_pos input + 4 + 8 + 16 * i) 8

/-- The trace when the walk reaches index entry `i`, the passes over the
entries before it having reached their end. -/
def trace_before_entry (env : Env) (input : List Byte) (i : Nat) : List Event :=
  completed_walk_events env input i (table_pos input + 4) []

/-- The allocation of the payload buffer for the record of index entry `i`
succeeds: `malloc`, called by `convert_file` for that record, returns a buffer. -/
def allocation_succeeds (env : Env) (input : List Byte) (i : Nat) : Prop :=
  env.malloc
    (trace_before_entry env input i ++
      [Event.convert (entry_offset input i : Int) (entry_checksum input i)])
    (field input (entry_offset input i + 17) 4) = true

/-- The preparation of the record of index entry `i` does not fail: the
preparer, called by `convert_file` for that record, returns no negative value. -/
def preparation_succeeds (env : Env) (input : List Byte) (i : Nat) : Prop :=
  0 ≤ prepare_result env input (trace_before_entry env input i)
    (entry_checksum input i) (entry_offset input i)

instance (env : Env) (input : List Byte) (i : Nat) :
    Decidable (allocation_succeeds env input i) := by
  unfold allocation_succeeds
  infer_instance

instance (env : Env) (input : List Byte) (i : Nat) :
    Decidable (preparation_succeeds env input i) := by
  unfold preparation_succeeds
  infer_instance

/-- The sample collaborators with an allocator that never returns a buffer. -/
def sample_env_no_memory : Env :=
  { sample_env false 0 with malloc := fun _ _ => false }

/-! ## Byte order -/

theorem to_le_bytes_length (w v : Nat) : (to_le_bytes w v).length = w := by
  induction w generalizing v with
  | zero => rfl
  | succ w ih => simp [to_le_bytes, ih]

theorem to_le_bytes_le_value (l : List Byte) : to_le_bytes l.length (le_value l) = l := by
  induction l with
  | nil => rfl
  | cons b bs ih =>
    have hb : b.val < 256 := b.isLt
    have h1 : (b.val + 256 * le_value bs) % 256 = b.val := by omega
    have h2 : (b.val + 256 * le_value bs) / 256 = le_value bs := by omega
    simp only [List.length_cons, to_le_bytes, le_value, h1, h2, ih]

theorem le_value_to_le_bytes (w v : Nat) (h : v < 256 ^ w) : le_value (to_le_bytes w v) = v := by
  induction w generalizing v with
  | zero =>
    have : v = 0 := by simpa using h
    simp [to_le_bytes, le_value, this]
  | succ w ih =>
    have h3 : v / 256 < 256 ^ w := by
      rw [Nat.div_lt_iff_lt_mul (by decide)]
      calc v < 256 ^ (w + 1) := h
        _ = 256 ^ w * 256 := by rw [pow_succ]
    simp only [to_le_bytes, le_value, ih _ h3]
    omega

theorem le_value_lt (l : List Byte) : le_value l < 256 ^ l.length := by
  induction l with
  | nil => simp [le_value]
  | cons b bs ih =>
    have hb : b.val < 256 := b.isLt
    simp only [le_value, List.length_cons, pow_succ]
    omega

/-- Converting what the host loaded yields the little-endian value on either host. -/
theorem le_to_host_host_load (be : Bool) (l : List Byte) :
    le_to_host be l.length (host_load be l) = le_value l := by
  cases be with
  | false => simp [le_to_host, host_load]
  | true =>
    have h := to_le_bytes_le_value l.reverse
    rw [List.length_reverse] at h
    simp [le_to_host, host_load, bswap, h]

theorem host_load_single (be : Bool) (b : Byte) : host_load be [b] = b.val := by
  cases be <;> simp [host_load, le_value]

theorem le_value_eq_sum (l : List Byte) :
    le_value l = ∑ i in Finset.range l.length, (l.getD i 0).val * 256 ^ i := by
  induction l with
  | nil => simp [le_value]
  | cons b bs ih =>
    rw [List.length_cons, Finset.sum_range_succ', le_value, ih, Finset.mul_sum]
    simp only [List.getD_cons_succ, List.getD_cons_zero, pow_zero, mul_one, pow_succ]
    rw [add_comm]
    congr 1
    apply Finset.sum_congr rfl
    intro i _
    ring

/-! ## The byte reader -/

theorem take_drop_length (input : List Byte) (p n : Nat) (h : p + n ≤ input.length) :
    ((input.drop p).take n).length = n := by
  simp only [List.length_take, List.length_drop]
  omega

theorem get_buffer_ok (n : Nat) (s : State) (h : s.pos + n ≤ s.input.length) :
    get_buffer n s = (0, (s.input.drop s.pos).take n, ⟨s.input, s.pos + n, s.trace⟩) := by
  have hl := take_drop_length s.input s.pos n h
  simp [get_buffer, fread, hl]

theorem get_buffer_short (n : Nat) (s : State) (hn : 0 < n) (h : s.input.length < s.pos + n) :
    get_buffer n s = (- EIO, (s.input.drop s.pos).take n,
      ⟨s.input, max s.pos s.input.length, s.trace⟩) := by
  have hl : ((s.input.drop s.pos).take n).length = min n (s.input.length - s.pos) := by
    rw [List.length_take, List.length_drop]
  have hne : ((s.input.drop s.pos).take n).length ≠ n := by
    rw [hl]
    omega
  have hp : s.pos + ((s.input.drop s.pos).take n).length = max s.pos s.input.length := by
    rw [hl]
    omega
  unfold get_buffer fread
  simp only [if_neg hne, hp]

theorem get_buffer_endian_ok (env : Env) (w : Nat) (s : State)
    (hw : w = 1 ∨ w = 2 ∨ w = 4 ∨ w = 8) (h : s.pos + w ≤ s.input.length) :
    get_buffer_endian env w s = (0, field s.input s.pos w, ⟨s.input, s.pos + w, s.trace⟩) := by
  have hl := take_drop_length s.input s.pos w h
  have hc := le_to_host_host_load env.big_endian ((s.input.drop s.pos).take w)
  rw [hl] at hc
  rcases hw with rfl | rfl | rfl | rfl
  · have h1 : ∃ b, (s.input.drop s.pos).take 1 = [b] := by
      match hm : (s.input.drop s.pos).take 1, hl with
      | [b], _ => exact ⟨b, rfl⟩
    obtain ⟨b, hb⟩ := h1
    simp [get_buffer_endian, get_buffer_ok _ _ h, field, hb, host_load_single, le_value]
  · simp [get_buffer_endian, get_buffer_ok _ _ h, field, hc]
  · simp [get_buffer_endian, get_buffer_ok _ _ h, field, hc]
  · simp [get_buffer_endian, get_buffer_ok _ _ h, field, hc]

theorem get_buffer_endian_short (env : Env) (w : Nat) (s : State) (hw : 0 < w)
    (h : s.input.length < s.pos + w) :
    get_buffer_endian env w s = (- EIO, 0, ⟨s.input, max s.pos s.input.length, s.trace⟩) := by
  simp [get_buffer_endian, get_buffer_short _ _ hw h, EIO]

theorem get_item_ok (env : Env) (w : Nat) (input : List Byte) (p : Nat) (tr : List Event)
    (hw : w = 1 ∨ w = 2 ∨ w = 4 ∨ w = 8) (h : p + w ≤ input.length) :
    get_item env w ⟨input, p, tr⟩ = (0, field input p w, ⟨input, p + w, tr⟩) :=
  get_buffer_endian_ok env w ⟨input, p, tr⟩ hw h

theorem get_item_short (env : Env) (w : Nat) (input : List Byte) (p : Nat) (tr : List Event)
    (hw : 0 < w) (h : input.length < p + w) :
    get_item env w ⟨input, p, tr⟩ = (- EIO, 0, ⟨input, max p input.length, tr⟩) :=
  get_buffer_endian_short env w ⟨input, p, tr⟩ hw h

theorem fseek_nat (p : Nat) (s : State) : fseek (p : Int) s = (0, ⟨s.input, p, s.trace⟩) := by
  simp [fseek]

theorem neg_EIO_lt : - EIO < 0 := by decide

theorem neg_EINVAL_lt : - EINVAL < 0 := by decide

theorem neg_ENOMEM_lt : - ENOMEM < 0 := by decide

theorem convert_file_closed_short (env : Env) (g : Globals) (p checksum : Nat)
    (input : List Byte) (p0 : Nat) (tr : List Event) (h : input.length < p + 21) :
    convert_file_closed env g (p : Int) checksum ⟨input, p0, tr⟩ =
      (- EIO, ⟨input, max p input.length, tr ++ [Event.convert (p : Int) checksum]⟩) := by
  have hneg : ¬ ((p : Int) < 0) := by omega
  simp [convert_file_closed, hneg, h]

/-- The record decoder agrees with its closed form on every input. -/
theorem convert_file_eq_closed (env : Env) (g : Globals) (pos : Int) (checksum : Nat)
    (s : State) :
    convert_file env g pos checksum s = convert_file_closed env g pos checksum s := by
  obtain ⟨input, p0, tr⟩ := s
  by_cases hneg : pos < 0
  · simp [convert_file, convert_file_closed, fseek, log, hneg]
  · obtain ⟨p, rfl⟩ : ∃ p : Nat, pos = (p : Int) := ⟨pos.toNat, by omega⟩
    have hf : ∀ e, fseek (p : Int) (log e ⟨input, p0, tr⟩) = (0, ⟨input, p, tr ++ [e]⟩) := by
      intro e
      simp [fseek, log]
    have h00 : ¬ (0 : Int) < 0 := by decide
    unfold convert_file
    dsimp only
    rw [hf]
    dsimp only
    rw [if_neg h00]
    by_cases h1 : input.length < p + 4
    · rw [get_item_short env 4 _ _ _ (by decide) h1]
      dsimp only
      rw [if_pos neg_EIO_lt, convert_file_closed_short env g p checksum input p0 tr (by omega)]
    rw [get_item_ok env 4 _ _ _ (by simp) (by omega)]
    dsimp only
    rw [if_neg h00]
    by_cases h2 : input.length < p + 4 + 4
    · rw [get_item_short env 4 _ _ _ (by decide) h2]
      dsimp only
      rw [if_pos neg_EIO_lt, convert_file_closed_short env g p checksum input p0 tr (by omega)]
      have e : max (p + 4) input.length = max p input.length := by omega
      rw [e]
    rw [get_item_ok env 4 _ _ _ (by simp) (by omega)]
    dsimp only
    rw [if_neg h00]
    by_cases h3 : input.length < p + 4 + 4 + 4
    · rw [get_item_short env 4 _ _ _ (by decide) h3]
      dsimp only
      rw [if_pos neg_EIO_lt, convert_file_closed_short env g p checksum input p0 tr (by omega)]
      have e : max (p + 4 + 4) input.length = max p input.length := by omega
      rw [e]
    rw [get_item_ok env 4 _ _ _ (by simp) (by omega)]
    dsimp only
    rw [if_neg h00]
    by_cases h4 : input.length < p + 4 + 4 + 4 + 2
    · rw [get_item_short env 2 _ _ _ (by decide) h4]
      dsimp only
      rw [if_pos neg_EIO_lt, convert_file_closed_short env g p checksum input p0 tr (by omega)]
      have e : max (p + 4 + 4 + 4) input.length = max p input.length := by omega
      rw [e]
    rw [get_item_ok env 2 _ _ _ (by simp) (by omega)]
    dsimp only
    rw [if_neg h00]
    by_cases h5 : input.length < p + 4 + 4 + 4 + 2 + 2
    · rw [get_item_short env 2 _ _ _ (by decide) h5]
      dsimp only
      rw [if_pos neg_EIO_lt, convert_file_closed_short env g p checksum input p0 tr (by omega)]
      have e : max (p + 4 + 4 + 4 + 2) input.length = max p input.length := by omega
      rw [e]
    rw [get_item_ok env 2 _ _ _ (by simp) (by omega)]
    dsimp only
    rw [if_neg h00]
    by_cases h6 : input.length < p + 4 + 4 + 4 + 2 + 2 + 1
    · rw [get_item_short env 1 _ _ _ (by decide) h6]
      dsimp only
      rw [if_pos neg_EIO_lt, convert_file_closed_short env g p checksum input p0 tr (by omega)]
      have e : max (p + 4 + 4 + 4 + 2 + 2) input.length = max p input.length := by omega
      rw [e]
    rw [get_item_ok env 1 _ _ _ (by simp) (by omega)]
    dsimp only
    rw [if_neg h00]
    by_cases h7 : input.length < p + 4 + 4 + 4 + 2 + 2 + 1 + 4
    · rw [get_item_short env 4 _ _ _ (by decide) h7]
      dsimp only
      rw [if_pos neg_EIO_lt, convert_file_closed_short env g p checksum input p0 tr (by omega)]
      have e : max (p + 4 + 4 + 4 + 2 + 2 + 1) input.length = max p input.length := by omega
      rw [e]
    rw [get_item_ok env 4 _ _ _ (by simp) (by omega)]
    dsimp only
    rw [if_neg h00]
    simp only [Nat.add_assoc, Nat.reduceAdd]
    have h21 : ¬ input.length < p + 21 := by omega
    unfold convert_file_closed
    simp only [hneg, h21, if_false, Int.toNat_ofNat, record_at]
    by_cases hz : field input (p + 17) 4 = 0
    · simp [hz]
    have hz' : ¬ field input (p + 17) 4 ≤ 0 := by omega
    simp only [hz, hz', if_false]
    by_cases hm : env.malloc (tr ++ [Event.convert (p : Int) checksum]) (field input (p + 17) 4) = true
    · simp only [hm, log, Bool.not_true, Bool.false_eq_true, if_false]
      by_cases hp : input.length < p + 21 + field input (p + 17) 4
      · rw [get_buffer_short _ _ (by omega) hp]
        have e : max (p + 21) input.length = input.length := by omega
        simp only [neg_EIO_lt, hp, e, if_true, List.append_assoc, List.singleton_append,
          Bool.true_eq_false, if_false]
      · rw [get_buffer_ok _ _ (by simp only []; omega)]
        simp only [h00, hp, if_false, Bool.true_eq_false]
        split_ifs <;> simp
    · simp [hm, log]

theorem convert_file_closed_input (env : Env) (g : Globals) (pos : Int) (checksum : Nat)
    (s : State) : (convert_file_closed env g pos checksum s).2.input = s.input := by
  unfold convert_file_closed
  dsimp only
  split_ifs <;> rfl

/-- One pass of the index walk agrees with its closed form on every input. -/
theorem index_entry_eq_closed (env : Env) (g : Globals) (s : State) :
    index_entry env g s = index_entry_closed env g s := by
  obtain ⟨input, p, tr⟩ := s
  have h00 : ¬ (0 : Int) < 0 := by decide
  unfold index_entry index_entry_closed
  dsimp only
  by_cases h1 : input.length < p + 8
  · rw [get_item_short env 8 _ _ _ (by decide) h1]
    dsimp only
    have h16 : input.length < p + 16 := by omega
    rw [if_pos neg_EIO_lt, if_pos h16]
  rw [get_item_ok env 8 _ _ _ (by simp) (by omega)]
  dsimp only
  rw [if_neg h00]
  by_cases h2 : input.length < p + 8 + 8
  · rw [get_item_short env 8 _ _ _ (by decide) h2]
    dsimp only
    have h16 : input.length < p + 16 := by omega
    have e : max (p + 8) input.length = max p input.length := by omega
    rw [if_pos neg_EIO_lt, if_pos h16, e]
  rw [get_item_ok env 8 _ _ _ (by simp) (by omega)]
  dsimp only
  rw [if_neg h00]
  have h16 : ¬ input.length < p + 16 := by omega
  have e16 : p + 8 + 8 = p + 16 := by omega
  rw [if_neg h16, e16]
  by_cases h3 : 2 ^ 63 ≤ p + 16
  · have hl : ¬ (p + 16 < 2 ^ 63) := by omega
    have ht : ftell ⟨input, p + 16, tr⟩ = -1 := by
      unfold ftell
      rw [if_neg hl]
    rw [ht, if_pos (by decide), if_pos h3]
  · have hl : p + 16 < 2 ^ 63 := by omega
    have ht : ftell ⟨input, p + 16, tr⟩ = ((p + 16 : Nat) : Int) := by
      unfold ftell
      rw [if_pos hl]
    have hn : ¬ (((p + 16 : Nat) : Int) < 0) := by omega
    rw [ht, if_neg hn, if_neg h3, convert_file_eq_closed]
    by_cases hr : (convert_file_closed env g (to_long (field input (p + 8) 8))
        (field input p 8) ⟨input, p + 16, tr⟩).1 < 0
    · rw [if_pos hr, if_pos hr]
    · have hi := convert_file_closed_input env g (to_long (field input (p + 8) 8))
        (field input p 8) ⟨input, p + 16, tr⟩
      rw [if_neg hr, if_neg hr, fseek_nat, if_neg h00, hi]

theorem to_long_of_lt (v : Nat) (h : v < 2 ^ 63) : to_long v = (v : Int) := by
  have h1 : v % 2 ^ 64 = v := Nat.mod_eq_of_lt (by omega)
  unfold to_long
  rw [h1, if_pos h]

theorem to_long_neg (v : Nat) (h1 : 2 ^ 63 ≤ v) (h2 : v < 2 ^ 64) : to_long v < 0 := by
  have h3 : v % 2 ^ 64 = v := Nat.mod_eq_of_lt h2
  have h4 : ¬ v < 2 ^ 63 := by omega
  unfold to_long
  rw [h3, if_neg h4]
  omega

theorem field_lt (input : List Byte) (p w : Nat) : field input p w < 256 ^ w := by
  unfold field
  have h1 := le_value_lt ((input.drop p).take w)
  have h2 : ((input.drop p).take w).length ≤ w := by
    rw [List.length_take]
    omega
  calc le_value ((input.drop p).take w) < 256 ^ ((input.drop p).take w).length := h1
    _ ≤ 256 ^ w := Nat.pow_le_pow_right (by decide) h2

theorem field_8_lt (input : List Byte) (p : Nat) : field input p 8 < 2 ^ 64 := by
  have h := field_lt input p 8
  have e : (256 : Nat) ^ 8 = 2 ^ 64 := by norm_num
  omega

/-- The function `convert_input` agrees with its closed form on every input. -/
theorem convert_input_eq_closed (env : Env) (g : Globals) (s : State) :
    convert_input env g s = convert_input_closed env g s := by
  obtain ⟨input, p, tr⟩ := s
  have h00 : ¬ (0 : Int) < 0 := by decide
  unfold convert_input convert_input_closed
  dsimp only
  by_cases h1 : input.length < p + 4
  · rw [get_item_short env 4 _ _ _ (by decide) h1]
    dsimp only
    rw [if_pos neg_EIO_lt, if_pos h1]
  rw [get_item_ok env 4 _ _ _ (by simp) (by omega)]
  dsimp only
  rw [if_neg h00, if_neg h1]
  by_cases h2 : env.parse_config (field input p 4) < 0
  · rw [if_pos h2, if_pos h2]
  rw [if_neg h2, if_neg h2]
  by_cases h3 : field input p 4 &&& env.FILE_CACHE_MASK = 0
  · rw [if_pos h3, if_pos h3]
  rw [if_neg h3, if_neg h3]
  by_cases h4 : input.length < p + 4 + 8
  · rw [get_item_short env 8 _ _ _ (by decide) h4]
    dsimp only
    have h12 : input.length < p + 12 := by omega
    have e : max (p + 4) input.length = input.length := by omega
    rw [if_pos neg_EIO_lt, if_pos h12, e]
  rw [get_item_ok env 8 _ _ _ (by simp) (by omega)]
  dsimp only
  have h12 : ¬ input.length < p + 12 := by omega
  rw [if_neg h00, if_neg h12]
  by_cases h5 : 2 ^ 63 ≤ field input (p + 4) 8
  · have hn := to_long_neg _ h5 (field_8_lt input (p + 4))
    have hs : fseek (to_long (field input (p + 4) 8)) ⟨input, p + 4 + 8, tr⟩
        = (-1, ⟨input, p + 4 + 8, tr⟩) := by
      unfold fseek
      rw [if_pos hn]
    rw [hs]
    dsimp only
    rw [if_pos (by decide), if_pos h5]
  rw [to_long_of_lt _ (by omega), fseek_nat]
  dsimp only
  rw [if_neg h00, if_neg h5]
  by_cases h6 : input.length < field input (p + 4) 8 + 4
  · rw [get_item_short env 4 _ _ _ (by decide) h6]
    dsimp only
    rw [if_pos neg_EIO_lt, if_pos h6]
  rw [get_item_ok env 4 _ _ _ (by simp) (by omega)]
  dsimp only
  rw [if_neg h00, if_neg h6]
  unfold convert_input_tail
  rcases index_loop env g (field input (field input (p + 4) 8) 4)
    ⟨input, field input (p + 4) 8 + 4, tr⟩ with ⟨_ | r, s1⟩
  · rfl
  · rfl

/-! ## The cursor invariant of the index walk -/

/-- C1: whenever one pass of the index loop of `convert_input` reaches its end
(the record detour `convert_file` did not abort the walk), the entry's
checksum and offset were both read, and the cursor after the restoring seek
equals the cursor saved right after those two reads, which is 16 bytes past
the start of the entry: the position the cursor would have without the
detour, whatever the record's offset and however many bytes the detour read. -/
theorem index_entry_restores_cursor (env : Env) (g : Globals) (s s' : State)
    (h : index_entry env g s = (none, s')) :
    (get_item env 8 s).1 = 0 ∧ (get_item env 8 (get_item env 8 s).2.2).1 = 0 ∧
    s'.pos = (get_item env 8 (get_item env 8 s).2.2).2.2.pos ∧
    s'.pos = s.pos + 16 ∧ s'.input = s.input := by
  obtain ⟨input, p, tr⟩ := s
  rw [index_entry_eq_closed] at h
  unfold index_entry_closed at h
  dsimp only at h
  by_cases h1 : input.length < p + 16
  · rw [if_pos h1] at h
    cases h
  rw [if_neg h1] at h
  by_cases h2 : 2 ^ 63 ≤ p + 16
  · rw [if_pos h2] at h
    cases h
  rw [if_neg h2] at h
  by_cases h3 : (convert_file_closed env g (to_long (field input (p + 8) 8))
      (field input p 8) ⟨input, p + 16, tr⟩).1 < 0
  · rw [if_pos h3] at h
    cases h
  rw [if_neg h3] at h
  have hs : s' = ⟨input, p + 16, (convert_file_closed env g (to_long (field input (p + 8) 8))
      (field input p 8) ⟨input, p + 16, tr⟩).2.trace⟩ := (Prod.mk.inj h).2.symm
  have g1 := get_item_ok env 8 input p tr (by simp) (by omega)
  have g2 := get_item_ok env 8 input (p + 8) tr (by simp) (by omega)
  rw [g1]
  dsimp only
  rw [g2, hs]
  exact ⟨rfl, rfl, by dsimp only, rfl, rfl⟩

theorem index_entry_restores_cursor_witness :
    (index_entry (sample_env false 0) ⟨0, false, false⟩ ⟨sample_container 1 0 1, 61, []⟩).1 = none ∧
    (index_entry (sample_env false 0) ⟨0, false, false⟩ ⟨sample_container 1 0 1, 61, []⟩).2.pos
      = 61 + 16 :=
  ⟨by decide,
    (index_entry_restores_cursor (sample_env false 0) ⟨0, false, false⟩
      ⟨sample_container 1 0 1, 61, []⟩
      (index_entry (sample_env false 0) ⟨0, false, false⟩ ⟨sample_container 1 0 1, 61, []⟩).2
      (by decide)).2.2.2.1⟩

/-! ## The capability check -/

/-- When the config word is readable, `parse_config` accepts it and it has no
bit of `FILE_CACHE_MASK`, `convert_input` returns the result of `parse_config`,
which is not negative, and does nothing else. -/
theorem convert_input_capability_clear (env : Env) (g : Globals) (s : State)
    (h1 : s.pos + 4 ≤ s.input.length) (h2 : 0 ≤ env.parse_config (field s.input s.pos 4))
    (h3 : field s.input s.pos 4 &&& env.FILE_CACHE_MASK = 0) :
    convert_input env g s
      = (env.parse_config (field s.input s.pos 4), ⟨s.input, s.pos + 4, s.trace⟩) := by
  have h1' : ¬ s.input.length < s.pos + 4 := by omega
  have h2' : ¬ env.parse_config (field s.input s.pos 4) < 0 := by omega
  rw [convert_input_eq_closed]
  unfold convert_input_closed
  dsimp only
  rw [if_neg h1', if_neg h2', if_pos h3]

/-- C2 (the code departs from the claim): on the sample container with config
word 0, accepted by `parse_config` but without the capability bit of mask 1,
`convert_input` stops right after the header and writes nothing, yet its
result is 0 and not negative, so `main` ends with outcome 0. -/
theorem capability_clear_reports_success :
    convert_input (sample_env false 0) ⟨0, false, false⟩ (start (sample_container 0 0 1))
      = (0, ⟨sample_container 0 0 1, 4, []⟩) ∧
    (main (sample_env false 0) 0 ⟨0, false, false⟩ (start (sample_container 0 0 1))).1 = 0 := by
  decide

/-! ## Records of size zero -/

/-- When the header of the record at `p` is readable and its size field is 0,
`convert_file` returns 0 after reading the header; it logs no allocation, no
preparer call and no writer call. -/
theorem convert_file_zero_size (env : Env) (g : Globals) (p checksum : Nat) (s : State)
    (h1 : p + 21 ≤ s.input.length) (h2 : field s.input (p + 17) 4 = 0) :
    convert_file env g (p : Int) checksum s
      = (0, ⟨s.input, p + 21, s.trace ++ [Event.convert (p : Int) checksum]⟩) := by
  have hneg : ¬ ((p : Int) < 0) := by omega
  have h1' : ¬ s.input.length < p + 21 := by omega
  rw [convert_file_eq_closed]
  unfold convert_file_closed
  simp only [hneg, h1', if_false, Int.toNat_ofNat, record_at, h2, if_true]

/-- C3 (the code departs from the claim): in the sample container whose first
listed record (offset 35) has size field 0, `convert_file` allocates nothing
and calls neither the preparer nor the entry writer, but its result is 0 and
not negative; the walk goes on to the second entry and `convert_input`
reports success with both end-of-archive blocks written. -/
theorem zero_size_record_reports_success :
    convert_file (sample_env false 0) ⟨0, false, false⟩ 35 0x1111
        ⟨sample_container 1 0 0, 77, []⟩
      = (0, ⟨sample_container 1 0 0, 56, [Event.convert 35 0x1111]⟩) ∧
    (convert_input (sample_env false 0) ⟨0, false, false⟩ (start (sample_container 1 0 0))).1 = 0 ∧
    records_decoded
      (convert_input (sample_env false 0) ⟨0, false, false⟩
        (start (sample_container 1 0 0))).2.trace = 2 := by
  decide

/-! ## Counting events -/

theorem entries_written_cons (e : Event) (tr : List Event) :
    entries_written (e :: tr) = entries_written tr + entries_written [e] := by
  cases e <;> simp [entries_written]

theorem preparations_failed_cons (e : Event) (tr : List Event) :
    preparations_failed (e :: tr) = preparations_failed tr + preparations_failed [e] := by
  cases e <;> simp [preparations_failed]

theorem records_decoded_cons (e : Event) (tr : List Event) :
    records_decoded (e :: tr) = records_decoded tr + records_decoded [e] := by
  cases e <;> simp [records_decoded]

theorem entries_written_append (a b : List Event) :
    entries_written (a ++ b) = entries_written a + entries_written b := by
  induction a with
  | nil => simp [entries_written]
  | cons e a ih =>
    rw [List.cons_append, entries_written_cons, entries_written_cons e a, ih]
    omega

theorem preparations_failed_append (a b : List Event) :
    preparations_failed (a ++ b) = preparations_failed a + preparations_failed b := by
  induction a with
  | nil => simp [preparations_failed]
  | cons e a ih =>
    rw [List.cons_append, preparations_failed_cons, preparations_failed_cons e a, ih]
    omega

theorem records_decoded_append (a b : List Event) :
    records_decoded (a ++ b) = records_decoded a + records_decoded b := by
  induction a with
  | nil => simp [records_decoded]
  | cons e a ih =>
    rw [List.cons_append, records_decoded_cons, records_decoded_cons e a, ih]
    omega

/-! ## The walk over readable entries -/

/-- What `convert_file` computes on a fully readable record whose buffer can be
allocated: the outcome is decided by the preparer and the entry writer. -/
theorem convert_file_readable (env : Env) (g : Globals) (input : List Byte)
    (checksum t p0 : Nat) (tr : List Event) (hr : record_readable input t)
    (hm : env.malloc (tr ++ [Event.convert (t : Int) checksum]) (field input (t + 17) 4) = true) :
    convert_file env g (to_long t) checksum ⟨input, p0, tr⟩ =
      (let file := record_at input checksum t
      let tr2 := tr ++ [Event.convert (t : Int) checksum, Event.malloc file.size true]
      let prepared := env.prepare_file tr2 file
      let tr3 := tr2 ++ [Event.prepare file prepared.1]
      if prepared.1 < 0 then
        (if g.ignore_error then 0 else prepared.1,
          ⟨input, t + 21 + file.size, tr3 ++ [Event.free]⟩)
      else
        (if env.write_file tr3 prepared.2 < 0 then env.write_file tr3 prepared.2 else 0,
          ⟨input, t + 21 + file.size,
            tr3 ++ [Event.write prepared.2 (env.write_file tr3 prepared.2), Event.free]⟩)) := by
  obtain ⟨h1, h2, h3, h4⟩ := hr
  have hneg : ¬ ((t : Int) < 0) := by omega
  have h2' : ¬ input.length < t + 21 := by omega
  have h3' : ¬ field input (t + 17) 4 = 0 := by omega
  have h4' : ¬ input.length < t + 21 + field input (t + 17) 4 := by omega
  rw [to_long_of_lt t h1, convert_file_eq_closed]
  unfold convert_file_closed
  simp only [hneg, h2', h3', h4', hm, if_false, Int.toNat_ofNat, record_at, Bool.true_eq_false,
    List.append_assoc, List.singleton_append, List.cons_append, List.nil_append]

/-- One pass of the index walk over a readable entry: the outcome is that of
the record detour, and a pass that goes on does so at the next entry. -/
theorem index_entry_readable (env : Env) (g : Globals) (input : List Byte) (p : Nat)
    (tr : List Event) (hlen : input.length < 2 ^ 63) (h16 : p + 16 ≤ input.length) :
    index_entry env g ⟨input, p, tr⟩ =
      (if (convert_file env g (to_long (field input (p + 8) 8)) (field input p 8)
            ⟨input, p + 16, tr⟩).1 < 0 then
        (some (convert_file env g (to_long (field input (p + 8) 8)) (field input p 8)
            ⟨input, p + 16, tr⟩).1,
          (convert_file env g (to_long (field input (p + 8) 8)) (field input p 8)
            ⟨input, p + 16, tr⟩).2)
      else
        (none, ⟨input, p + 16,
          (convert_file env g (to_long (field input (p + 8) 8)) (field input p 8)
            ⟨input, p + 16, tr⟩).2.trace⟩)) := by
  have h1 : ¬ input.length < p + 16 := by omega
  have h2 : ¬ 2 ^ 63 ≤ p + 16 := by omega
  rw [index_entry_eq_closed, convert_file_eq_closed]
  unfold index_entry_closed
  simp only [h1, h2, if_false]

/-- One pass over a readable entry with a readable record, when allocation and
the entry writer never fail and preparation failures are skipped or absent:
the pass goes on at the next entry, one more record has been decoded, and it
was either written or counted as a failed preparation. -/
theorem index_entry_valid (env : Env) (g : Globals) (input : List Byte)
    (hlen : input.length < 2 ^ 63)
    (hm : ∀ tr n, env.malloc tr n = true) (hw : ∀ tr f, 0 ≤ env.write_file tr f)
    (hp : g.ignore_error = true ∨ ∀ tr f, 0 ≤ (env.prepare_file tr f).1)
    (p : Nat) (tr : List Event) (h16 : p + 16 ≤ input.length)
    (hr : record_readable input (field input (p + 8) 8)) :
    ∃ tr', index_entry env g ⟨input, p, tr⟩ = (none, ⟨input, p + 16, tr'⟩) ∧
      records_decoded tr' = records_decoded tr + 1 ∧
      entries_written tr' + preparations_failed tr'
        = entries_written tr + preparations_failed tr + 1 ∧
      (g.ignore_error = false → preparations_failed tr' = preparations_failed tr) := by
  have h00 : ¬ (0 : Int) < 0 := by decide
  rw [index_entry_readable env g input p tr hlen h16,
    convert_file_readable env g input _ _ _ tr hr (hm _ _)]
  dsimp only
  by_cases hpr : (env.prepare_file
      (tr ++ [Event.convert (↑(field input (p + 8) 8)) (field input p 8),
        Event.malloc (record_at input (field input p 8) (field input (p + 8) 8)).size true])
      (record_at input (field input p 8) (field input (p + 8) 8))).1 < 0
  · have hig : g.ignore_error = true := by
      rcases hp with h | h
      · exact h
      · exact absurd hpr (not_lt.mpr (h _ _))
    simp only [hpr, hig, if_true, h00, if_false]
    refine ⟨_, rfl, ?_, ?_, ?_⟩
    · simp [records_decoded_append, records_decoded]
    · simp [entries_written_append, preparations_failed_append, entries_written,
        preparations_failed, hpr]
      omega
    · intro h
      cases h
  · have hwr := hw
      (tr ++ [Event.convert (↑(field input (p + 8) 8)) (field input p 8),
          Event.malloc (record_at input (field input p 8) (field input (p + 8) 8)).size true] ++
        [Event.prepare (record_at input (field input p 8) (field input (p + 8) 8))
          (env.prepare_file
            (tr ++ [Event.convert (↑(field input (p + 8) 8)) (field input p 8),
              Event.malloc (record_at input (field input p 8) (field input (p + 8) 8)).size
                true])
            (record_at input (field input p 8) (field input (p + 8) 8))).1])
      (env.prepare_file
        (tr ++ [Event.convert (↑(field input (p + 8) 8)) (field input p 8),
          Event.malloc (record_at input (field input p 8) (field input (p + 8) 8)).size true])
        (record_at input (field input p 8) (field input (p + 8) 8))).2
    have hwr' := not_lt.mpr hwr
    simp only [hpr, hwr', if_false, h00]
    refine ⟨_, rfl, ?_, ?_, ?_⟩
    · simp [records_decoded_append, records_decoded]
    · simp [entries_written_append, preparations_failed_append, entries_written,
        preparations_failed, hpr]
      omega
    · intro _
      simp [preparations_failed_append, preparations_failed, hpr]

/-- The walk over `k` readable entries with readable records runs to the end
of the loop, decodes `k` records, and writes each one whose preparation did
not fail. -/
theorem index_loop_valid (env : Env) (g : Globals) (input : List Byte)
    (hlen : input.length < 2 ^ 63)
    (hm : ∀ tr n, env.malloc tr n = true) (hw : ∀ tr f, 0 ≤ env.write_file tr f)
    (hp : g.ignore_error = true ∨ ∀ tr f, 0 ≤ (env.prepare_file tr f).1) :
    ∀ (k p : Nat) (tr : List Event), p + 16 * k ≤ input.length →
      (∀ j, j < k → record_readable input (field input (p + 8 + 16 * j) 8)) →
      ∃ tr', index_loop env g k ⟨input, p, tr⟩ = (none, ⟨input, p + 16 * k, tr'⟩) ∧
        records_decoded tr' = records_decoded tr + k ∧
        entries_written tr' + preparations_failed tr'
          = entries_written tr + preparations_failed tr + k ∧
        (g.ignore_error = false → preparations_failed tr' = preparations_failed tr) := by
  intro k
  induction k with
  | zero =>
    intro p tr _ _
    exact ⟨tr, rfl, rfl, rfl, fun _ => rfl⟩
  | succ k ih =>
    intro p tr hk hrec
    obtain ⟨tr1, e1, d1, w1, f1⟩ := index_entry_valid env g input hlen hm hw hp p tr
      (by omega) (hrec 0 (by omega))
    obtain ⟨tr2, e2, d2, w2, f2⟩ := ih (p + 16) tr1 (by omega) (by
      intro j hj
      have h := hrec (j + 1) (by omega)
      have e : p + 8 + 16 * (j + 1) = p + 16 + 8 + 16 * j := by omega
      rw [e] at h
      exact h)
    refine ⟨tr2, ?_, by omega, by omega, ?_⟩
    · have e : p + 16 * (k + 1) = p + 16 + 16 * k := by omega
      rw [e]
      unfold index_loop
      rw [e1]
      exact e2
    · intro h
      rw [f2 h, f1 h]

/-! ## The number of archive entries -/

/-- On a container with an accepted header, `convert_input` is the index walk
from the first entry followed by the end of the function. -/
theorem convert_input_header_ok (env : Env) (g : Globals) (input : List Byte)
    (tr : List Event) (hh : header_ok env input) :
    convert_input env g ⟨input, 0, tr⟩ =
      convert_input_tail env
        (index_loop env g (entry_count input) ⟨input, table_pos input + 4, tr⟩) := by
  obtain ⟨h1, h2, h3, h4, h5⟩ := hh
  unfold table_pos at h4 h5
  have c1 : ¬ input.length < 0 + 4 := by omega
  have c2 : ¬ env.parse_config (field input 0 4) < 0 := by omega
  have c4 : ¬ input.length < 0 + 12 := by omega
  have c5 : ¬ 2 ^ 63 ≤ field input 4 8 := by omega
  have c6 : ¬ input.length < field input 4 8 + 4 := by omega
  rw [convert_input_eq_closed]
  unfold convert_input_closed entry_count table_pos
  simp only [c1, c2, h3, c4, Nat.zero_add, c5, c6, if_false]

/-- The end of `convert_input` after a completed walk adds no archive entry
and no preparer call to the trace. -/
theorem convert_input_tail_counts (env : Env) (s : State) :
    entries_written (convert_input_tail env (none, s)).2.trace = entries_written s.trace ∧
    preparations_failed (convert_input_tail env (none, s)).2.trace
      = preparations_failed s.trace := by
  unfold convert_input_tail
  dsimp only
  split_ifs <;>
    simp [write_tarblock, log, entries_written_append, preparations_failed_append,
      entries_written, preparations_failed]

/-! ## Preparation failures -/

/-- What `convert_file` computes when the preparation of a readable record fails. -/
theorem convert_file_prepare_fails (env : Env) (g : Globals) (input : List Byte)
    (checksum t p0 : Nat) (tr : List Event) (hr : record_readable input t)
    (hm : env.malloc (tr ++ [Event.convert (t : Int) checksum]) (field input (t + 17) 4) = true)
    (hpr : prepare_result env input tr checksum t < 0) :
    convert_file env g (to_long t) checksum ⟨input, p0, tr⟩ =
      (if g.ignore_error then 0 else prepare_result env input tr checksum t,
        ⟨input, t + 21 + field input (t + 17) 4,
          trace_after_failed_prepare env input tr checksum t⟩) := by
  rw [convert_file_readable env g input checksum t p0 tr hr hm]
  unfold prepare_result trace_at_prepare at hpr
  unfold trace_after_failed_prepare prepare_result trace_at_prepare
  simp only [record_at] at hpr ⊢
  rw [if_pos hpr]
  simp only [List.append_assoc, List.singleton_append, List.cons_append, List.nil_append]

theorem index_loop_succ_none (env : Env) (g : Globals) (m : Nat) (s s1 : State)
    (h : index_entry env g s = (none, s1)) :
    index_loop env g (m + 1) s = index_loop env g m s1 := by
  rw [index_loop, h]

theorem index_loop_succ_some (env : Env) (g : Globals) (m : Nat) (s s1 : State) (r : Int)
    (h : index_entry env g s = (some r, s1)) :
    index_loop env g (m + 1) s = (some r, s1) := by
  rw [index_loop, h]

/-- C5: with `ignore_error` set, when the preparation of the readable record of
the index entry at `p` fails, `convert_file` returns 0 and the trace it leaves
holds no writer call for that record; the walk continues with the next entry
at `p + 16`; and when the later entries are readable (with allocation and the
entry writer not failing) the walk reaches the end of the loop having decoded
every one of them and written each one whose preparation did not fail. -/
theorem ignored_preparation_failure_continues (env : Env) (g : Globals) (input : List Byte)
    (p checksum t : Nat) (tr : List Event)
    (hig : g.ignore_error = true) (hlen : input.length < 2 ^ 63)
    (h16 : p + 16 ≤ input.length)
    (hc : field input p 8 = checksum) (ht : field input (p + 8) 8 = t)
    (hr : record_readable input t)
    (hm : env.malloc (tr ++ [Event.convert (t : Int) checksum]) (field input (t + 17) 4) = true)
    (hpr : prepare_result env input tr checksum t < 0) :
    convert_file env g (to_long t) checksum ⟨input, p + 16, tr⟩
      = (0, ⟨input, t + 21 + field input (t + 17) 4,
          trace_after_failed_prepare env input tr checksum t⟩) ∧
    entries_written (trace_after_failed_prepare env input tr checksum t) = entries_written tr ∧
    (∀ m, index_loop env g (m + 1) ⟨input, p, tr⟩
      = index_loop env g m ⟨input, p + 16, trace_after_failed_prepare env input tr checksum t⟩) ∧
    (∀ m, (∀ tr' n, env.malloc tr' n = true) → (∀ tr' f, 0 ≤ env.write_file tr' f) →
      p + 16 * (m + 1) ≤ input.length →
      (∀ j, 1 ≤ j → j ≤ m → record_readable input (field input (p + 8 + 16 * j) 8)) →
      ∃ tr', index_loop env g (m + 1) ⟨input, p, tr⟩
          = (none, ⟨input, p + 16 * (m + 1), tr'⟩) ∧
        records_decoded tr' = records_decoded tr + (m + 1) ∧
        entries_written tr' + preparations_failed tr'
          = entries_written tr + preparations_failed tr + (m + 1)) := by
  have h00 : ¬ (0 : Int) < 0 := by decide
  have hcf := convert_file_prepare_fails env g input checksum t (p + 16) tr hr hm hpr
  rw [hig, if_pos rfl] at hcf
  have hie : index_entry env g ⟨input, p, tr⟩
      = (none, ⟨input, p + 16, trace_after_failed_prepare env input tr checksum t⟩) := by
    rw [index_entry_readable env g input p tr hlen h16, hc, ht, hcf]
    dsimp only
    rw [if_neg h00]
  refine ⟨hcf, ?_, fun m => index_loop_succ_none env g m _ _ hie, ?_⟩
  · unfold trace_after_failed_prepare trace_at_prepare
    simp [entries_written_append, entries_written]
  · intro m hma hwr hfit hrec
    obtain ⟨tr', e, d, w, _⟩ := index_loop_valid env g input hlen hma hwr (Or.inl hig)
      (m + 1) p tr hfit (by
        intro j hj
        rcases Nat.eq_zero_or_pos j with h0 | h0
        · subst h0
          rw [Nat.mul_zero, Nat.add_zero, ht]
          exact hr
        · exact hrec j h0 (by omega))
    exact ⟨tr', e, d, w⟩

theorem ignored_preparation_failure_continues_witness :
    index_loop (sample_env false 0) ⟨0, true, false⟩ 2 ⟨sample_container 1 7 1, 61, []⟩
      = index_loop (sample_env false 0) ⟨0, true, false⟩ 1
          ⟨sample_container 1 7 1, 77,
            trace_after_failed_prepare (sample_env false 0) (sample_container 1 7 1) [] 0x1111 35⟩ :=
  (ignored_preparation_failure_continues (sample_env false 0) ⟨0, true, false⟩
    (sample_container 1 7 1) 61 0x1111 35 [] rfl (by decide) (by decide) (by decide) (by decide)
    (by decide) rfl (by decide)).2.2.1 1

/-! ## Failures of the entry writer -/

/-- The events `convert_file` adds to the trace, and the fate of a failed
writer call among them: its result is the result of `convert_file`, and only
the release of the buffer follows it. -/
theorem convert_file_write_fatal (env : Env) (g : Globals) (pos : Int) (checksum : Nat)
    (s : State) :
    ∃ evs, (convert_file env g pos checksum s).2.trace = s.trace ++ evs ∧
      ∀ f w, Event.write f w ∈ evs → w < 0 →
        (convert_file env g pos checksum s).1 = w ∧
        ∃ before, evs = before ++ [Event.write f w, Event.free] := by
  rw [convert_file_eq_closed]
  unfold convert_file_closed
  dsimp only
  split_ifs
  all_goals
    try simp only [List.append_assoc, List.singleton_append, List.cons_append,
      List.nil_append] at *
    refine ⟨_, rfl, ?_⟩
    intro f w h hw
    first
      | (simp only [List.mem_cons, List.mem_singleton, List.not_mem_nil, reduceCtorEq, false_or,
          or_false, Event.write.injEq] at h
         done)
      | (simp only [List.mem_cons, List.mem_singleton, List.not_mem_nil, reduceCtorEq, false_or,
          or_false, Event.write.injEq] at h
         obtain ⟨rfl, rfl⟩ := h
         first
           | exact ⟨rfl, [_, _, _], rfl⟩
           | exact absurd hw (by assumption))

theorem index_entry_write_fatal (env : Env) (g : Globals) (s : State) :
    ∃ evs, (index_entry env g s).2.trace = s.trace ++ evs ∧
      ∀ f w, Event.write f w ∈ evs → w < 0 →
        (index_entry env g s).1 = some w ∧
        ∃ before, evs = before ++ [Event.write f w, Event.free] := by
  obtain ⟨evs, he, hw⟩ := convert_file_write_fatal env g (to_long (field s.input (s.pos + 8) 8))
    (field s.input s.pos 8) ⟨s.input, s.pos + 16, s.trace⟩
  rw [convert_file_eq_closed] at he hw
  rw [index_entry_eq_closed]
  unfold index_entry_closed
  dsimp only
  split_ifs with h1 h2 h3
  · exact ⟨[], (List.append_nil _).symm, by simp⟩
  · exact ⟨[], (List.append_nil _).symm, by simp⟩
  · exact ⟨evs, he, fun f w hm hlt => ⟨congrArg some (hw f w hm hlt).1, (hw f w hm hlt).2⟩⟩
  · refine ⟨evs, he, fun f w hm hlt => ?_⟩
    have := (hw f w hm hlt).1
    rw [this] at h3
    exact absurd hlt h3

theorem index_loop_write_fatal (env : Env) (g : Globals) :
    ∀ (k : Nat) (s : State), ∃ evs, (index_loop env g k s).2.trace = s.trace ++ evs ∧
      ∀ f w, Event.write f w ∈ evs → w < 0 →
        (index_loop env g k s).1 = some w ∧
        ∃ before, evs = before ++ [Event.write f w, Event.free] := by
  intro k
  induction k with
  | zero =>
    intro s
    exact ⟨[], (List.append_nil _).symm, by simp⟩
  | succ k ih =>
    intro s
    obtain ⟨evs1, he1, hw1⟩ := index_entry_write_fatal env g s
    rcases hie : index_entry env g s with ⟨_ | r, s1⟩
    · rw [hie] at he1 hw1
      obtain ⟨evs2, he2, hw2⟩ := ih s1
      rw [index_loop_succ_none env g k s s1 hie]
      refine ⟨evs1 ++ evs2, ?_, ?_⟩
      · rw [he2, he1, List.append_assoc]
      · intro f w hm hlt
        rcases List.mem_append.mp hm with h | h
        · cases (hw1 f w h hlt).1
        · obtain ⟨h1, before, h2⟩ := hw2 f w h hlt
          exact ⟨h1, evs1 ++ before, by rw [h2, List.append_assoc]⟩
    · rw [hie] at he1 hw1
      rw [index_loop_succ_some env g k s s1 r hie]
      exact ⟨evs1, he1, hw1⟩

/-- The end of `convert_input` passes an early return of the walk on unchanged
and otherwise adds only block writes to the trace. -/
theorem convert_input_tail_events (env : Env) (r : Option Int) (s : State) :
    ∃ evs, (convert_input_tail env (r, s)).2.trace = s.trace ++ evs ∧
      (∀ f w, Event.write f w ∉ evs) ∧
      (∀ x, r = some x → convert_input_tail env (r, s) = (x, s)) := by
  cases r with
  | some x =>
    exact ⟨[], (List.append_nil _).symm, by simp, fun y hy => by
      cases hy
      rfl⟩
  | none =>
    unfold convert_input_tail
    dsimp only
    split_ifs
    all_goals
      simp only [write_tarblock, log, List.append_assoc, List.singleton_append]
      refine ⟨_, rfl, ?_, ?_⟩
      · intro f w
        simp
      · intro x hx
        cases hx

theorem convert_input_write_fatal (env : Env) (g : Globals) (s : State) :
    ∃ evs, (convert_input env g s).2.trace = s.trace ++ evs ∧
      ∀ f w, Event.write f w ∈ evs → w < 0 →
        (convert_input env g s).1 = w ∧
        ∃ before, evs = before ++ [Event.write f w, Event.free] := by
  rw [convert_input_eq_closed]
  unfold convert_input_closed
  dsimp only
  split_ifs with h1 h2 h3 h4 h5 h6
  · exact ⟨[], (List.append_nil _).symm, by simp⟩
  · exact ⟨[], (List.append_nil _).symm, by simp⟩
  · exact ⟨[], (List.append_nil _).symm, by simp⟩
  · exact ⟨[], (List.append_nil _).symm, by simp⟩
  · exact ⟨[], (List.append_nil _).symm, by simp⟩
  · exact ⟨[], (List.append_nil _).symm, by simp⟩
  obtain ⟨evs1, he1, hw1⟩ := index_loop_write_fatal env g
    (field s.input (field s.input (s.pos + 4) 8) 4)
    ⟨s.input, field s.input (s.pos + 4) 8 + 4, s.trace⟩
  rcases hl : index_loop env g (field s.input (field s.input (s.pos + 4) 8) 4)
    ⟨s.input, field s.input (s.pos + 4) 8 + 4, s.trace⟩ with ⟨r, s1⟩
  rw [hl] at he1 hw1
  obtain ⟨evs2, he2, hn2, hr2⟩ := convert_input_tail_events env r s1
  refine ⟨evs1 ++ evs2, ?_, ?_⟩
  · rw [he2, he1, List.append_assoc]
  · intro f w hm hlt
    rcases List.mem_append.mp hm with h | h
    · obtain ⟨h1, before, h2⟩ := hw1 f w h hlt
      dsimp only at h1
      have h3 := hr2 w h1
      rw [h3] at he2
      have h4 : evs2 = [] := by
        have := List.append_cancel_left (he2.symm.trans (List.append_nil _).symm)
        exact this
      rw [h3, h4, List.append_nil]
      exact ⟨rfl, before, h2⟩
    · exact absurd h (hn2 f w)

/-- C6: a failure of the entry writer is fatal whatever `ignore_error` says.  In
every run of `convert_file`, and in every run of `convert_input`, a call of
`write_file` that returned a negative value makes the function return that
same negative value, and the run stops there: after the failed call the trace
holds only the release of the payload buffer. -/
theorem write_failure_is_fatal (env : Env) (g : Globals) :
    (∀ (pos : Int) (checksum : Nat) (s : State),
      ∃ evs, (convert_file env g pos checksum s).2.trace = s.trace ++ evs ∧
        ∀ f w, Event.write f w ∈ evs → w < 0 →
          (convert_file env g pos checksum s).1 = w ∧
          ∃ before, evs = before ++ [Event.write f w, Event.free]) ∧
    (∀ s : State,
      ∃ evs, (convert_input env g s).2.trace = s.trace ++ evs ∧
        ∀ f w, Event.write f w ∈ evs → w < 0 →
          (convert_input env g s).1 = w ∧
          ∃ before, evs = before ++ [Event.write f w, Event.free]) :=
  ⟨convert_file_write_fatal env g, convert_input_write_fatal env g⟩

/-! ## The end-of-archive blocks -/

theorem convert_file_no_tarblock (env : Env) (g : Globals) (pos : Int) (checksum : Nat)
    (s : State) :
    ∃ evs, (convert_file env g pos checksum s).2.trace = s.trace ++ evs ∧
      ∀ b r, Event.tarblock b r ∉ evs := by
  rw [convert_file_eq_closed]
  unfold convert_file_closed
  dsimp only
  split_ifs
  all_goals
    try simp only [List.append_assoc, List.singleton_append, List.cons_append,
      List.nil_append] at *
    refine ⟨_, rfl, ?_⟩
    intro b r
    simp

theorem index_entry_no_tarblock (env : Env) (g : Globals) (s : State) :
    ∃ evs, (index_entry env g s).2.trace = s.trace ++ evs ∧
      (∀ b r, Event.tarblock b r ∉ evs) ∧
      ∀ x, (index_entry env g s).1 = some x → x < 0 := by
  obtain ⟨evs, he, hn⟩ := convert_file_no_tarblock env g (to_long (field s.input (s.pos + 8) 8))
    (field s.input s.pos 8) ⟨s.input, s.pos + 16, s.trace⟩
  rw [convert_file_eq_closed] at he
  rw [index_entry_eq_closed]
  unfold index_entry_closed
  dsimp only
  split_ifs with h1 h2 h3
  · exact ⟨[], (List.append_nil _).symm, by simp, fun x hx => by
      cases hx
      exact neg_EINVAL_lt⟩
  · exact ⟨[], (List.append_nil _).symm, by simp, fun x hx => by
      cases hx
      exact neg_EINVAL_lt⟩
  · exact ⟨evs, he, hn, fun x hx => by
      cases hx
      exact h3⟩
  · exact ⟨evs, he, hn, fun x hx => by cases hx⟩

theorem index_loop_no_tarblock (env : Env) (g : Globals) :
    ∀ (k : Nat) (s : State), ∃ evs, (index_loop env g k s).2.trace = s.trace ++ evs ∧
      (∀ b r, Event.tarblock b r ∉ evs) ∧
      ∀ x, (index_loop env g k s).1 = some x → x < 0 := by
  intro k
  induction k with
  | zero =>
    intro s
    exact ⟨[], (List.append_nil _).symm, by simp, fun x hx => by cases hx⟩
  | succ k ih =>
    intro s
    obtain ⟨evs1, he1, hn1, hx1⟩ := index_entry_no_tarblock env g s
    rcases hie : index_entry env g s with ⟨_ | r, s1⟩
    · rw [hie] at he1
      obtain ⟨evs2, he2, hn2, hx2⟩ := ih s1
      rw [index_loop_succ_none env g k s s1 hie]
      refine ⟨evs1 ++ evs2, ?_, ?_, hx2⟩
      · rw [he2, he1, List.append_assoc]
      · intro b r hm
        rcases List.mem_append.mp hm with h | h
        · exact hn1 b r h
        · exact hn2 b r h
    · rw [hie] at he1 hx1
      rw [index_loop_succ_some env g k s s1 r hie]
      exact ⟨evs1, he1, hn1, hx1⟩

/-- Apart from the capability branch, a run of `convert_input` that does not
report failure ends its trace with exactly two block writes, both of
`TARBLOCKSIZE` zero bytes and both successful, and hands no block to the
output before them. -/
theorem convert_input_success_blocks (env : Env) (g : Globals) (s : State)
    (hcap : field s.input s.pos 4 &&& env.FILE_CACHE_MASK ≠ 0)
    (hok : 0 ≤ (convert_input env g s).1) :
    ∃ evs r1 r2, (convert_input env g s).2.trace
        = s.trace ++ evs ++
          [Event.tarblock (List.replicate env.TARBLOCKSIZE 0) r1,
            Event.tarblock (List.replicate env.TARBLOCKSIZE 0) r2] ∧
      0 ≤ r1 ∧ 0 ≤ r2 ∧ ∀ b r, Event.tarblock b r ∉ evs := by
  rw [convert_input_eq_closed] at hok ⊢
  unfold convert_input_closed at hok ⊢
  dsimp only at hok ⊢
  split_ifs at hok ⊢ with h1 h2 h3 h4 h5
  · exact absurd hok (not_le.mpr neg_EIO_lt)
  · exact absurd h2 (not_lt.mpr hok)
  · exact absurd hok (not_le.mpr neg_EINVAL_lt)
  · exact absurd hok (not_le.mpr (Int.negSucc_lt_zero 0))
  · exact absurd hok (not_le.mpr neg_EINVAL_lt)
  obtain ⟨evs1, he1, hn1, hx1⟩ := index_loop_no_tarblock env g
    (field s.input (field s.input (s.pos + 4) 8) 4)
    ⟨s.input, field s.input (s.pos + 4) 8 + 4, s.trace⟩
  rcases hl : index_loop env g (field s.input (field s.input (s.pos + 4) 8) 4)
    ⟨s.input, field s.input (s.pos + 4) 8 + 4, s.trace⟩ with ⟨_ | x, s1⟩
  · rw [hl] at he1 hok
    dsimp only at he1
    unfold convert_input_tail at hok ⊢
    dsimp only at hok ⊢
    split_ifs at hok ⊢ with k1 k2
    · exact absurd k1 (not_lt.mpr hok)
    · exact absurd k2 (not_lt.mpr hok)
    · refine ⟨evs1, _, _, ?_, not_lt.mp k1, not_lt.mp k2, hn1⟩
      simp [write_tarblock, log, he1]
  · rw [hl] at hx1 hok
    have := hx1 x rfl
    unfold convert_input_tail at hok
    dsimp only at hok
    exact absurd this (not_lt.mpr hok)

/-- C7 (the code departs from the claim): on the sample container with config
word 0, accepted by `parse_config` but without the capability bit, the run of
`convert_input` does not report failure (its result is 0) and yet appends
nothing to the output: the trace holds no end-of-archive block at all. -/
theorem capability_clear_writes_no_blocks :
    0 ≤ (convert_input (sample_env false 0) ⟨0, false, false⟩
      (start (sample_container 0 0 1))).1 ∧
    (convert_input (sample_env false 0) ⟨0, false, false⟩
      (start (sample_container 0 0 1))).2.trace = [] := by
  decide


/-! ## Aborting the walk -/

theorem index_loop_reach (env : Env) (g : Globals) :
    ∀ (k b : Nat) (s sk : State), index_loop env g k s = (none, sk) →
      index_loop env g (k + b) s = index_loop env g b sk := by
  intro k
  induction k with
  | zero =>
    intro b s sk h
    have hs : s = sk := (Prod.mk.inj h).2
    rw [Nat.zero_add, hs]
  | succ k ih =>
    intro b s sk h
    have e : k + 1 + b = (k + b) + 1 := by omega
    rw [e]
    rcases hie : index_entry env g s with ⟨_ | r, s1⟩
    · rw [index_loop_succ_none env g k s s1 hie] at h
      rw [index_loop_succ_none env g (k + b) s s1 hie]
      exact ih b s1 sk h
    · rw [index_loop_succ_some env g k s s1 r hie] at h
      cases h

/-- When the walk over an accepted container has passed `k` entries and the
next pass returns, `convert_input` returns what that pass returned, in the
state that pass left. -/
theorem convert_input_abort_at (env : Env) (g : Globals) (input : List Byte) (k m : Nat)
    (sk s' : State) (r : Int) (hh : header_ok env input)
    (hn : entry_count input = k + (m + 1))
    (hreach : index_loop env g k ⟨input, table_pos input + 4, []⟩ = (none, sk))
    (hie : index_entry env g sk = (some r, s')) :
    convert_input env g (start input) = (r, s') := by
  unfold start
  rw [convert_input_header_ok env g input [] hh, hn,
    index_loop_reach env g k (m + 1) _ sk hreach, index_loop_succ_some env g m sk s' r hie]
  rfl

/-- The record decoder fails when the record's offset does not fit a `long`,
when its header is cut short, or when its payload is cut short. -/
theorem convert_file_closed_fails (env : Env) (g : Globals) (input : List Byte)
    (checksum t p0 : Nat) (tr : List Event) (h64 : t < 2 ^ 64)
    (hfail : 2 ^ 63 ≤ t ∨ input.length < t + 21 ∨
      (0 < field input (t + 17) 4 ∧ input.length < t + 21 + field input (t + 17) 4)) :
    (convert_file_closed env g (to_long t) checksum ⟨input, p0, tr⟩).1 < 0 := by
  by_cases ht : 2 ^ 63 ≤ t
  · have hn := to_long_neg t ht h64
    unfold convert_file_closed
    dsimp only
    rw [if_pos hn]
    exact Int.negSucc_lt_zero 0
  · have hneg : ¬ ((t : Int) < 0) := by omega
    rw [to_long_of_lt t (by omega)]
    unfold convert_file_closed
    simp only [hneg, if_false, Int.toNat_ofNat, record_at]
    by_cases h21 : input.length < t + 21
    · rw [if_pos h21]
      exact neg_EIO_lt
    · rw [if_neg h21]
      have hp : 0 < field input (t + 17) 4 ∧
          input.length < t + 21 + field input (t + 17) 4 := by
        rcases hfail with h | h | h
        · exact absurd h ht
        · exact absurd h h21
        · exact h
      have hz : ¬ field input (t + 17) 4 = 0 := by omega
      rw [if_neg hz]
      by_cases hm : env.malloc (tr ++ [Event.convert (t : Int) checksum])
          (field input (t + 17) 4) = false
      · rw [if_pos hm]
        exact neg_ENOMEM_lt
      · rw [if_neg hm, if_pos hp.2]
        exact neg_EIO_lt

/-- C8: failures other than a failed preparation are never skipped.  When the
walk over an accepted container has passed `k` entries and the next index
entry is cut short (checksum or offset), or its record offset is rejected by
the seek, or the record's header or payload is cut short, then the pass over
that entry returns a negative value and `convert_input` returns that value in
the state the pass left, so no further index entry is processed; this holds
for every setting of `ignore_error`. -/
theorem truncation_aborts_walk (env : Env) (g : Globals) (input : List Byte)
    (k m p t : Nat) (tr : List Event)
    (hh : header_ok env input) (hn : entry_count input = k + (m + 1))
    (hreach : index_loop env g k ⟨input, table_pos input + 4, []⟩ = (none, ⟨input, p, tr⟩))
    (ht : field input (p + 8) 8 = t)
    (hfail : input.length < p + 16 ∨ 2 ^ 63 ≤ t ∨ input.length < t + 21 ∨
      (0 < field input (t + 17) 4 ∧ input.length < t + 21 + field input (t + 17) 4)) :
    ∃ r s', index_entry env g ⟨input, p, tr⟩ = (some r, s') ∧ r < 0 ∧
      convert_input env g (start input) = (r, s') := by
  have key : ∃ r s', index_entry env g ⟨input, p, tr⟩ = (some r, s') ∧ r < 0 := by
    rw [index_entry_eq_closed]
    unfold index_entry_closed
    dsimp only
    by_cases h1 : input.length < p + 16
    · rw [if_pos h1]
      exact ⟨_, _, rfl, neg_EINVAL_lt⟩
    rw [if_neg h1]
    by_cases h2 : 2 ^ 63 ≤ p + 16
    · rw [if_pos h2]
      exact ⟨_, _, rfl, neg_EINVAL_lt⟩
    rw [if_neg h2, ht]
    have hcf := convert_file_closed_fails env g input (field input p 8) t (p + 16) tr
      (by rw [← ht]; exact field_8_lt input (p + 8)) (by
        rcases hfail with h | h
        · exact absurd h h1
        · exact h)
    rw [if_pos hcf]
    exact ⟨_, _, rfl, hcf⟩
  obtain ⟨r, s', hie, hr⟩ := key
  exact ⟨r, s', hie, hr, convert_input_abort_at env g input k m _ s' r hh hn hreach hie⟩

theorem truncation_aborts_walk_witness :
    (convert_input (sample_env false 0) ⟨0, true, false⟩
      (start (sample_container 1 0 1000))).1 < 0 := by
  obtain ⟨r, s', _, h2, h3⟩ := truncation_aborts_walk (sample_env false 0) ⟨0, true, false⟩
    (sample_container 1 0 1000) 0 1 61 35 [] (by decide) (by decide) rfl (by decide)
    (Or.inr (Or.inr (Or.inr (by decide))))
  rw [h3]
  exact h2

/-- C9: with `ignore_error` clear, when the preparation of the readable record
of index entry `k` fails, `convert_file` returns the preparer's negative
result and the trace it leaves holds no writer call for that record; and
`convert_input` returns that same result in the very state `convert_file`
left, cursor behind the record's payload and trace ending with the release of
the buffer, so no later index entry has been read or decoded. -/
theorem preparation_failure_aborts (env : Env) (g : Globals) (input : List Byte)
    (k m p checksum t : Nat) (tr : List Event)
    (hig : g.ignore_error = false) (hlen : input.length < 2 ^ 63)
    (hh : header_ok env input) (hn : entry_count input = k + (m + 1))
    (hreach : index_loop env g k ⟨input, table_pos input + 4, []⟩ = (none, ⟨input, p, tr⟩))
    (h16 : p + 16 ≤ input.length)
    (hc : field input p 8 = checksum) (ht : field input (p + 8) 8 = t)
    (hr : record_readable input t)
    (hm : env.malloc (tr ++ [Event.convert (t : Int) checksum]) (field input (t + 17) 4) = true)
    (hpr : prepare_result env input tr checksum t < 0) :
    convert_file env g (to_long t) checksum ⟨input, p + 16, tr⟩
      = (prepare_result env input tr checksum t,
          ⟨input, t + 21 + field input (t + 17) 4,
            trace_after_failed_prepare env input tr checksum t⟩) ∧
    entries_written (trace_after_failed_prepare env input tr checksum t) = entries_written tr ∧
    records_decoded (trace_after_failed_prepare env input tr checksum t)
      = records_decoded tr + 1 ∧
    convert_input env g (start input)
      = (prepare_result env input tr checksum t,
          ⟨input, t + 21 + field input (t + 17) 4,
            trace_after_failed_prepare env input tr checksum t⟩) := by
  have hcf := convert_file_prepare_fails env g input checksum t (p + 16) tr hr hm hpr
  rw [hig, if_neg (by decide)] at hcf
  have hie : index_entry env g ⟨input, p, tr⟩
      = (some (prepare_result env input tr checksum t),
          ⟨input, t + 21 + field input (t + 17) 4,
            trace_after_failed_prepare env input tr checksum t⟩) := by
    rw [index_entry_readable env g input p tr hlen h16, hc, ht, hcf]
    dsimp only
    rw [if_pos hpr]
  refine ⟨hcf, ?_, ?_, convert_input_abort_at env g input k m _ _ _ hh hn hreach hie⟩
  · unfold trace_after_failed_prepare trace_at_prepare
    simp [entries_written_append, entries_written]
  · unfold trace_after_failed_prepare trace_at_prepare
    simp [records_decoded_append, records_decoded]

theorem preparation_failure_aborts_witness :
    convert_input (sample_env false 0) ⟨0, false, false⟩ (start (sample_container 1 7 1))
      = (prepare_result (sample_env false 0) (sample_container 1 7 1) [] 0x1111 35,
          ⟨sample_container 1 7 1, 35 + 21 + field (sample_container 1 7 1) (35 + 17) 4,
            trace_after_failed_prepare (sample_env false 0) (sample_container 1 7 1) []
              0x1111 35⟩) :=
  (preparation_failure_aborts (sample_env false 0) ⟨0, false, false⟩ (sample_container 1 7 1)
    0 1 61 0x1111 35 [] rfl (by decide) (by decide) (by decide) rfl (by decide) (by decide)
    (by decide) (by decide) rfl (by decide)).2.2.2


/-! ## Little-endian fields -/

theorem field_eq_sum (input : List Byte) (p w : Nat) (h : p + w ≤ input.length) :
    field input p w = ∑ i in Finset.range w, (input.getD (p + i) 0).val * 256 ^ i := by
  unfold field
  rw [le_value_eq_sum, take_drop_length input p w h]
  apply Finset.sum_congr rfl
  intro i hi
  have hi' : i < w := Finset.mem_range.mp hi
  simp [List.getD_eq_getElem?_getD, List.getElem?_take, hi']

theorem field_encoded (before after : List Byte) (w v : Nat) (h : v < 256 ^ w) :
    field (before ++ to_le_bytes w v ++ after) before.length w = v := by
  unfold field
  have e : ((before ++ to_le_bytes w v ++ after).drop before.length).take w
      = to_le_bytes w v := by
    rw [List.append_assoc, List.drop_left]
    have hl := to_le_bytes_length w v
    exact List.take_left' hl
  rw [e, le_value_to_le_bytes w v h]

/-- C10: for every width 2, 4 or 8 and every stream with at least that many
bytes at the cursor, `get_buffer_endian` succeeds on a host of either byte
order and yields the sum of `b_i * 256^i` over the bytes read, advancing the
cursor by the width; in particular it returns `v` when the bytes at the cursor
are the little-endian encoding of a value `v` of that width; and for width 1
it yields the single byte unmodified. -/
theorem get_buffer_endian_little_endian (env : Env) (w : Nat)
    (hw : w = 2 ∨ w = 4 ∨ w = 8) :
    (∀ s : State, s.pos + w ≤ s.input.length →
      get_buffer_endian env w s
        = (0, ∑ i in Finset.range w, (s.input.getD (s.pos + i) 0).val * 256 ^ i,
            ⟨s.input, s.pos + w, s.trace⟩)) ∧
    (∀ (v : Nat) (before after : List Byte) (tr : List Event), v < 256 ^ w →
      get_buffer_endian env w ⟨before ++ to_le_bytes w v ++ after, before.length, tr⟩
        = (0, v, ⟨before ++ to_le_bytes w v ++ after, before.length + w, tr⟩)) ∧
    (∀ s : State, s.pos + 1 ≤ s.input.length →
      get_buffer_endian env 1 s
        = (0, (s.input.getD s.pos 0).val, ⟨s.input, s.pos + 1, s.trace⟩)) := by
  have hw' : w = 1 ∨ w = 2 ∨ w = 4 ∨ w = 8 := Or.inr hw
  refine ⟨?_, ?_, ?_⟩
  · intro s h
    rw [get_buffer_endian_ok env w s hw' h, field_eq_sum s.input s.pos w h]
  · intro v before after tr h
    have hl : (before ++ to_le_bytes w v ++ after).length = before.length + w + after.length := by
      simp [to_le_bytes_length]
      omega
    rw [get_buffer_endian_ok env w _ hw' (by dsimp only; omega)]
    dsimp only
    rw [field_encoded before after w v h]
  · intro s h
    rw [get_buffer_endian_ok env 1 s (Or.inl rfl) h, field_eq_sum s.input s.pos 1 h]
    simp

theorem get_buffer_endian_little_endian_witness :
    get_buffer_endian (sample_env true 0) 2 ⟨[0xFF] ++ to_le_bytes 2 0x1234 ++ [], 1, []⟩
      = (0, 0x1234, ⟨[0xFF] ++ to_le_bytes 2 0x1234 ++ [], 1 + 2, []⟩) :=
  (get_buffer_endian_little_endian (sample_env true 0) 2 (Or.inl rfl)).2.1
    0x1234 [0xFF] [] [] (by decide)

/-! ## Success and failure of the byte reader -/

theorem fread_short (n : Nat) (s : State) (h : s.input.length < s.pos + n) :
    (fread n s).2 = ⟨s.input, max s.pos s.input.length, s.trace⟩ := by
  have hl : ((s.input.drop s.pos).take n).length = min n (s.input.length - s.pos) := by
    rw [List.length_take, List.length_drop]
  have hp : s.pos + ((s.input.drop s.pos).take n).length = max s.pos s.input.length := by
    rw [hl]
    omega
  unfold fread
  simp only [hp]

/-- C11: for every width 1, 2, 4 or 8, `get_buffer_endian` returns 0 if and only
if at least that many bytes remain between the cursor and the end of the
stream; on success the cursor has advanced by exactly the width; and when fewer
bytes remain the result is `-EIO` and the stream is left as the single `fread`
left it, without a further attempt. -/
theorem get_buffer_endian_succeeds_iff (env : Env) (w : Nat) (s : State)
    (hw : w = 1 ∨ w = 2 ∨ w = 4 ∨ w = 8) :
    ((get_buffer_endian env w s).1 = 0 ↔ w ≤ s.input.length - s.pos) ∧
    (w ≤ s.input.length - s.pos → (get_buffer_endian env w s).2.2.pos = s.pos + w) ∧
    (s.input.length - s.pos < w →
      (get_buffer_endian env w s).1 = - EIO ∧
      (get_buffer_endian env w s).2.2 = (fread w s).2) := by
  have hpos : 0 < w := by omega
  by_cases h : s.pos + w ≤ s.input.length
  · rw [get_buffer_endian_ok env w s hw h]
    refine ⟨⟨fun _ => by omega, fun _ => rfl⟩, fun _ => rfl, fun h' => ?_⟩
    omega
  · have h' : s.input.length < s.pos + w := by omega
    rw [get_buffer_endian_short env w s hpos h', fread_short w s h']
    refine ⟨⟨fun h0 => ?_, fun h1 => ?_⟩, fun h1 => ?_, fun _ => ⟨rfl, rfl⟩⟩
    · exact absurd h0 (ne_of_lt neg_EIO_lt)
    · omega
    · omega

theorem get_buffer_endian_succeeds_iff_witness :
    (get_buffer_endian (sample_env true 0) 4 ⟨sample_container 1 0 1, 89, []⟩).1 = 0 ∧
    (get_buffer_endian (sample_env true 0) 4 ⟨sample_container 1 0 1, 90, []⟩).1 = - EIO :=
  ⟨(get_buffer_endian_succeeds_iff (sample_env true 0) 4 ⟨sample_container 1 0 1, 89, []⟩
      (Or.inr (Or.inr (Or.inl rfl)))).1.2 (by decide),
    ((get_buffer_endian_succeeds_iff (sample_env true 0) 4 ⟨sample_container 1 0 1, 90, []⟩
      (Or.inr (Or.inr (Or.inl rfl)))).2.2 (by decide)).1⟩

/-- C12 (amended): for every field width outside 1, 2, 4 and 8, `get_buffer_endian`
fails with `-EINVAL` when at least that many bytes remain at the cursor, after
having read them; when fewer bytes remain, the read fails first and the result
is the read error `-EIO`. -/
theorem get_buffer_endian_invalid_width (env : Env) (w : Nat) (s : State)
    (hw : w ≠ 1 ∧ w ≠ 2 ∧ w ≠ 4 ∧ w ≠ 8) :
    (w ≤ s.input.length - s.pos →
      get_buffer_endian env w s = (- EINVAL, 0, ⟨s.input, s.pos + w, s.trace⟩)) ∧
    (s.input.length - s.pos < w →
      get_buffer_endian env w s
        = (- EIO, 0, ⟨s.input, max s.pos s.input.length, s.trace⟩)) := by
  obtain ⟨h1, h2, h4, h8⟩ := hw
  refine ⟨fun h => ?_, fun h => ?_⟩
  · have hgb : get_buffer w s = (0, (s.input.drop s.pos).take w, ⟨s.input, s.pos + w, s.trace⟩) := by
      rcases Nat.eq_zero_or_pos w with h0 | h0
      · subst h0
        simp [get_buffer, fread]
      · exact get_buffer_ok w s (by omega)
    unfold get_buffer_endian
    rw [hgb]
    dsimp only
    rw [if_neg (by decide)]
    split
    · exact absurd rfl h1
    · exact absurd rfl h2
    · exact absurd rfl h4
    · exact absurd rfl h8
    · rfl
  · exact get_buffer_endian_short env w s (by omega) (by omega)

theorem get_buffer_endian_invalid_width_witness :
    get_buffer_endian (sample_env true 0) 3 ⟨sample_container 1 0 1, 0, []⟩
      = (- EINVAL, 0, ⟨sample_container 1 0 1, 0 + 3, []⟩) :=
  (get_buffer_endian_invalid_width (sample_env true 0) 3 ⟨sample_container 1 0 1, 0, []⟩
    (by decide)).1 (by decide)

/-- C12 as stated fails: with width 3 and only two bytes left at the cursor, the
result of `get_buffer_endian` is the read error `-EIO` and not `-EINVAL`. -/
theorem get_buffer_endian_invalid_width_counterexample :
    (get_buffer_endian (sample_env true 0) 3 ⟨sample_container 1 0 1, 91, []⟩).1 = - EIO ∧
    (get_buffer_endian (sample_env true 0) 3 ⟨sample_container 1 0 1, 91, []⟩).1 ≠ - EINVAL := by
  decide

/-! ## The process outcome -/

/-- C19: the outcome computed by `main` is 1 exactly when `init` returned a
negative value, 2 exactly when `init` did not and `convert_input` returned a
negative value, and 0 otherwise; so it is non-zero if and only if `init`, or
after it `convert_input`, returned a negative value. -/
theorem main_outcome (env : Env) (init_ret : Int) (g : Globals) (s : State) :
    ((main env init_ret g s).1 = 1 ↔ init_ret < 0) ∧
    ((main env init_ret g s).1 = 2 ↔ 0 ≤ init_ret ∧ (convert_input env g s).1 < 0) ∧
    ((main env init_ret g s).1 = 0 ↔ 0 ≤ init_ret ∧ 0 ≤ (convert_input env g s).1) ∧
    ((main env init_ret g s).1 ≠ 0 ↔
      init_ret < 0 ∨ (0 ≤ init_ret ∧ (convert_input env g s).1 < 0)) := by
  unfold main
  rcases hci : convert_input env g s with ⟨ret, s1⟩
  dsimp only
  by_cases h1 : init_ret < 0
  · rw [if_pos h1]
    dsimp only
    refine ⟨⟨fun _ => h1, fun _ => rfl⟩, ⟨fun h => absurd h (by decide), fun h => ?_⟩,
      ⟨fun h => absurd h (by decide), fun h => ?_⟩, ⟨fun _ => Or.inl h1, fun _ => by decide⟩⟩
    · omega
    · omega
  · rw [if_neg h1]
    by_cases h2 : ret < 0
    · rw [if_pos h2]
      dsimp only
      refine ⟨⟨fun h => absurd h (by decide), fun h => absurd h h1⟩,
        ⟨fun _ => ⟨by omega, h2⟩, fun _ => rfl⟩,
        ⟨fun h => absurd h (by decide), fun h => ?_⟩,
        ⟨fun _ => Or.inr ⟨by omega, h2⟩, fun _ => by decide⟩⟩
      omega
    · rw [if_neg h2]
      dsimp only
      refine ⟨⟨fun h => absurd h (by decide), fun h => absurd h h1⟩,
        ⟨fun h => absurd h (by decide), fun h => absurd h.2 h2⟩,
        ⟨fun _ => ⟨by omega, by omega⟩, fun _ => rfl⟩,
        ⟨fun h => absurd rfl h, fun h => ?_⟩⟩
      rcases h with h | h
      · exact absurd h h1
      · exact absurd h.2 h2


/-! ## Payload buffers -/

theorem track_buffers_append (evs1 evs2 : List Event) :
    ∀ live live' : Nat, track_buffers live evs1 = some live' →
      track_buffers live (evs1 ++ evs2) = track_buffers live' evs2 := by
  induction evs1 with
  | nil =>
    intro live live' h
    simp only [track_buffers, Option.some.injEq] at h
    rw [List.nil_append, h]
  | cons e evs1 ih =>
    intro live live' h
    rw [List.cons_append]
    cases e with
    | malloc size ok =>
      cases ok with
      | true =>
        simp only [track_buffers] at h ⊢
        by_cases h0 : live = 0
        · rw [if_pos h0] at h ⊢
          exact ih _ _ h
        · rw [if_neg h0] at h
          cases h
      | false =>
        simp only [track_buffers] at h ⊢
        exact ih _ _ h
    | free =>
      simp only [track_buffers] at h ⊢
      by_cases h0 : live = 0
      · rw [if_pos h0] at h
        cases h
      · rw [if_neg h0] at h ⊢
        exact ih _ _ h
    | convert pos checksum =>
      simp only [track_buffers] at h ⊢
      exact ih _ _ h
    | prepare file ret =>
      simp only [track_buffers] at h ⊢
      exact ih _ _ h
    | write file ret =>
      simp only [track_buffers] at h ⊢
      exact ih _ _ h
    | tarblock block ret =>
      simp only [track_buffers] at h ⊢
      exact ih _ _ h

theorem convert_file_buffers (env : Env) (g : Globals) (pos : Int) (checksum : Nat)
    (s : State) :
    ∃ evs, (convert_file env g pos checksum s).2.trace = s.trace ++ evs ∧
      track_buffers 0 evs = some 0 := by
  rw [convert_file_eq_closed]
  unfold convert_file_closed
  dsimp only
  split_ifs
  all_goals
    try simp only [List.append_assoc, List.singleton_append, List.cons_append,
      List.nil_append] at *
    exact ⟨_, rfl, rfl⟩

theorem index_entry_buffers (env : Env) (g : Globals) (s : State) :
    ∃ evs, (index_entry env g s).2.trace = s.trace ++ evs ∧
      track_buffers 0 evs = some 0 := by
  obtain ⟨evs, he, hb⟩ := convert_file_buffers env g (to_long (field s.input (s.pos + 8) 8))
    (field s.input s.pos 8) ⟨s.input, s.pos + 16, s.trace⟩
  rw [convert_file_eq_closed] at he
  rw [index_entry_eq_closed]
  unfold index_entry_closed
  dsimp only
  split_ifs
  · exact ⟨[], (List.append_nil _).symm, rfl⟩
  · exact ⟨[], (List.append_nil _).symm, rfl⟩
  · exact ⟨evs, he, hb⟩
  · exact ⟨evs, he, hb⟩

theorem index_loop_buffers (env : Env) (g : Globals) :
    ∀ (k : Nat) (s : State), ∃ evs, (index_loop env g k s).2.trace = s.trace ++ evs ∧
      track_buffers 0 evs = some 0 := by
  intro k
  induction k with
  | zero =>
    intro s
    exact ⟨[], (List.append_nil _).symm, rfl⟩
  | succ k ih =>
    intro s
    obtain ⟨evs1, he1, hb1⟩ := index_entry_buffers env g s
    rcases hie : index_entry env g s with ⟨_ | r, s1⟩
    · rw [hie] at he1
      obtain ⟨evs2, he2, hb2⟩ := ih s1
      rw [index_loop_succ_none env g k s s1 hie]
      refine ⟨evs1 ++ evs2, ?_, ?_⟩
      · rw [he2, he1, List.append_assoc]
      · rw [track_buffers_append evs1 evs2 0 0 hb1]
        exact hb2
    · rw [hie] at he1
      rw [index_loop_succ_some env g k s s1 r hie]
      exact ⟨evs1, he1, hb1⟩

theorem convert_input_tail_buffers (env : Env) (r : Option Int) (s : State) :
    ∃ evs, (convert_input_tail env (r, s)).2.trace = s.trace ++ evs ∧
      track_buffers 0 evs = some 0 := by
  cases r with
  | some x => exact ⟨[], (List.append_nil _).symm, rfl⟩
  | none =>
    unfold convert_input_tail
    dsimp only
    split_ifs
    all_goals
      simp only [write_tarblock, log, List.append_assoc, List.singleton_append]
      exact ⟨_, rfl, rfl⟩

theorem convert_input_buffers (env : Env) (g : Globals) (s : State) :
    ∃ evs, (convert_input env g s).2.trace = s.trace ++ evs ∧
      track_buffers 0 evs = some 0 := by
  rw [convert_input_eq_closed]
  unfold convert_input_closed
  dsimp only
  split_ifs
  · exact ⟨[], (List.append_nil _).symm, rfl⟩
  · exact ⟨[], (List.append_nil _).symm, rfl⟩
  · exact ⟨[], (List.append_nil _).symm, rfl⟩
  · exact ⟨[], (List.append_nil _).symm, rfl⟩
  · exact ⟨[], (List.append_nil _).symm, rfl⟩
  · exact ⟨[], (List.append_nil _).symm, rfl⟩
  obtain ⟨evs1, he1, hb1⟩ := index_loop_buffers env g
    (field s.input (field s.input (s.pos + 4) 8) 4)
    ⟨s.input, field s.input (s.pos + 4) 8 + 4, s.trace⟩
  rcases hl : index_loop env g (field s.input (field s.input (s.pos + 4) 8) 4)
    ⟨s.input, field s.input (s.pos + 4) 8 + 4, s.trace⟩ with ⟨r, s1⟩
  rw [hl] at he1
  obtain ⟨evs2, he2, hb2⟩ := convert_input_tail_buffers env r s1
  refine ⟨evs1 ++ evs2, ?_, ?_⟩
  · rw [he2, he1, List.append_assoc]
  · rw [track_buffers_append evs1 evs2 0 0 hb1]
    exact hb2

/-- C14: with the payload buffers as explicit state, every run of `convert_file`,
on whatever exit path it returns, adds to the trace a sequence of events in
which a buffer is allocated only while none is live, released only while one is
live, and none is live at the end: each buffer it allocated has been released
exactly once before it returns and at most one is live at any time.  The same
holds for every run of `convert_input`, so no payload buffer is live when the
next index entry is processed. -/
theorem payload_buffer_released (env : Env) (g : Globals) :
    (∀ (pos : Int) (checksum : Nat) (s : State),
      ∃ evs, (convert_file env g pos checksum s).2.trace = s.trace ++ evs ∧
        track_buffers 0 evs = some 0) ∧
    (∀ s : State,
      ∃ evs, (index_entry env g s).2.trace = s.trace ++ evs ∧
        track_buffers 0 evs = some 0) ∧
    (∀ s : State,
      ∃ evs, (convert_input env g s).2.trace = s.trace ++ evs ∧
        track_buffers 0 evs = some 0) :=
  ⟨convert_file_buffers env g, index_entry_buffers env g, convert_input_buffers env g⟩


/-! ## The record handed to the preparer -/

/-- Every preparer call in a run of `convert_file` is made for a non-negative
offset with the record that lies at that offset. -/
theorem convert_file_prepare_events (env : Env) (g : Globals) (pos : Int) (checksum : Nat)
    (s : State) :
    ∃ evs, (convert_file env g pos checksum s).2.trace = s.trace ++ evs ∧
      ∀ f r, Event.prepare f r ∈ evs →
        0 ≤ pos ∧ f = record_at s.input checksum pos.toNat := by
  rw [convert_file_eq_closed]
  unfold convert_file_closed
  dsimp only
  split_ifs with h1
  all_goals
    try simp only [List.append_assoc, List.singleton_append, List.cons_append,
      List.nil_append] at *
    refine ⟨_, rfl, ?_⟩
    intro f r h
    first
      | (simp only [List.mem_cons, List.mem_singleton, List.not_mem_nil, reduceCtorEq, false_or,
          or_false, Event.prepare.injEq] at h
         done)
      | (simp only [List.mem_cons, List.mem_singleton, List.not_mem_nil, reduceCtorEq, false_or,
          or_false, Event.prepare.injEq] at h
         exact ⟨not_lt.mp h1, h.1⟩)

theorem getD_take_drop (input : List Byte) (p n i : Nat) (hi : i < n) :
    ((input.drop p).take n).getD i 0 = input.getD (p + i) 0 := by
  simp [List.getD_eq_getElem?_getD, List.getElem?_take, hi]

/-- C15: for every offset `p` (a `long`) and checksum `c` such that the stream
holds the 21 header bytes at `p`, the decoded size is positive and the payload
bytes follow in full, every record `convert_file` hands to the preparer is the
record at `p`, and it does hand it over when the buffer can be allocated; that
record has checksum `c`, its width, height and format are the little-endian
32-bit values at `p`, `p + 4`, `p + 8`, its texture format and pixel type the
little-endian 16-bit values at `p + 12`, `p + 14`, its hires flag the byte at
`p + 16`, its size the little-endian 32-bit value at `p + 17`, and its payload
the bytes of the stream from `p + 21` on, unchanged on either host. -/
theorem record_handed_to_preparer (env : Env) (g : Globals) (p c : Nat) (s : State)
    (hp : p < 2 ^ 63) (h21 : p + 21 ≤ s.input.length)
    (hs : 0 < field s.input (p + 17) 4)
    (hd : p + 21 + field s.input (p + 17) 4 ≤ s.input.length) :
    (∃ evs, (convert_file env g (p : Int) c s).2.trace = s.trace ++ evs ∧
      (∀ f r, Event.prepare f r ∈ evs → f = record_at s.input c p) ∧
      (env.malloc (s.trace ++ [Event.convert (p : Int) c]) (field s.input (p + 17) 4) = true →
        ∃ r, Event.prepare (record_at s.input c p) r ∈ evs)) ∧
    (record_at s.input c p).checksum = c ∧
    (record_at s.input c p).width
      = ∑ i in Finset.range 4, (s.input.getD (p + i) 0).val * 256 ^ i ∧
    (record_at s.input c p).height
      = ∑ i in Finset.range 4, (s.input.getD (p + 4 + i) 0).val * 256 ^ i ∧
    (record_at s.input c p).format
      = ∑ i in Finset.range 4, (s.input.getD (p + 8 + i) 0).val * 256 ^ i ∧
    (record_at s.input c p).texture_format
      = ∑ i in Finset.range 2, (s.input.getD (p + 12 + i) 0).val * 256 ^ i ∧
    (record_at s.input c p).pixel_type
      = ∑ i in Finset.range 2, (s.input.getD (p + 14 + i) 0).val * 256 ^ i ∧
    (record_at s.input c p).is_hires_tex = (s.input.getD (p + 16) 0).val ∧
    (record_at s.input c p).size
      = ∑ i in Finset.range 4, (s.input.getD (p + 17 + i) 0).val * 256 ^ i ∧
    (record_at s.input c p).data.length = (record_at s.input c p).size ∧
    (∀ i, i < (record_at s.input c p).size →
      (record_at s.input c p).data.getD i 0 = s.input.getD (p + 21 + i) 0) := by
  refine ⟨?_, rfl, field_eq_sum _ _ _ (by omega), field_eq_sum _ _ _ (by omega),
    field_eq_sum _ _ _ (by omega), field_eq_sum _ _ _ (by omega),
    field_eq_sum _ _ _ (by omega), ?_, field_eq_sum _ _ _ (by omega), ?_, ?_⟩
  · obtain ⟨evs, he, hev⟩ := convert_file_prepare_events env g (p : Int) c s
    refine ⟨evs, he, fun f r h => ?_, fun hm => ?_⟩
    · have := (hev f r h).2
      rw [Int.toNat_ofNat] at this
      exact this
    · obtain ⟨input, p0, tr⟩ := s
      have hr : record_readable input p := ⟨hp, h21, hs, hd⟩
      have hcf := convert_file_readable env g input c p p0 tr hr hm
      rw [to_long_of_lt p hp] at hcf
      rw [hcf] at he
      dsimp only at he
      split_ifs at he
      all_goals
        simp only [List.append_assoc, List.singleton_append, List.cons_append,
          List.nil_append] at he
        have hevs := List.append_cancel_left he
        rw [← hevs]
        exact ⟨_, List.mem_cons_of_mem _ (List.mem_cons_of_mem _ (List.mem_cons_self _ _))⟩
  · show field s.input (p + 16) 1 = _
    rw [field_eq_sum _ _ _ (by omega)]
    simp
  · show ((s.input.drop (p + 21)).take (field s.input (p + 17) 4)).length = _
    exact take_drop_length _ _ _ hd
  · intro i hi
    exact getD_take_drop s.input (p + 21) _ i hi

theorem record_handed_to_preparer_witness :
    ∃ r, Event.prepare (record_at (sample_container 1 0 1) 0x2222 12) r ∈
      (convert_file (sample_env true 0) ⟨0, false, false⟩ 12 0x2222
        ⟨sample_container 1 0 1, 93, []⟩).2.trace := by
  obtain ⟨⟨evs, he, _, h2⟩, _⟩ := record_handed_to_preparer (sample_env true 0)
    ⟨0, false, false⟩ 12 0x2222 ⟨sample_container 1 0 1, 93, []⟩ (by decide) (by decide)
    (by decide) (by decide)
  obtain ⟨r, hr⟩ := h2 rfl
  exact ⟨r, by
    have e : (12 : Int) = ((12 : Nat) : Int) := rfl
    rw [e, he]
    exact List.mem_append_right _ hr⟩

/-! ## Decoding in index order -/

theorem decode_calls_cons (e : Event) (tr : List Event) :
    decode_calls (e :: tr) = decode_calls [e] ++ decode_calls tr := by
  cases e <;> simp [decode_calls]

theorem decode_calls_append (a b : List Event) :
    decode_calls (a ++ b) = decode_calls a ++ decode_calls b := by
  induction a with
  | nil => simp [decode_calls]
  | cons e a ih =>
    rw [List.cons_append, decode_calls_cons, decode_calls_cons e a, ih, List.append_assoc]

theorem index_calls_succ (input : List Byte) (p j : Nat) :
    index_calls input p (j + 1)
      = (to_long (field input (p + 8) 8), field input p 8) :: index_calls input (p + 16) j := by
  unfold index_calls
  rw [List.range_succ_eq_map, List.map_cons, List.map_map]
  congr 1
  apply List.map_congr_left
  intro i _
  have e1 : p + 8 + 16 * (i + 1) = p + 16 + 8 + 16 * i := by omega
  have e2 : p + 16 * (i + 1) = p + 16 + 16 * i := by omega
  simp only [Function.comp, Nat.succ_eq_add_one, e1, e2]

theorem convert_file_calls (env : Env) (g : Globals) (pos : Int) (checksum : Nat) (s : State) :
    decode_calls (convert_file env g pos checksum s).2.trace
      = decode_calls s.trace ++ [(pos, checksum)] := by
  rw [convert_file_eq_closed]
  unfold convert_file_closed
  dsimp only
  split_ifs <;> simp [decode_calls_append, decode_calls]

/-- One pass of the index walk makes at most one call of `convert_file`, with
the offset and checksum of its entry, and makes it whenever it reaches its end. -/
theorem index_entry_calls (env : Env) (g : Globals) (input : List Byte) (p : Nat)
    (tr : List Event) :
    ∃ j, j ≤ 1 ∧
      decode_calls (index_entry env g ⟨input, p, tr⟩).2.trace
        = decode_calls tr ++ index_calls input p j ∧
      ((index_entry env g ⟨input, p, tr⟩).1 = none →
        j = 1 ∧ (index_entry env g ⟨input, p, tr⟩).2.input = input ∧
        (index_entry env g ⟨input, p, tr⟩).2.pos = p + 16) := by
  have hc := convert_file_calls env g (to_long (field input (p + 8) 8)) (field input p 8)
    ⟨input, p + 16, tr⟩
  rw [convert_file_eq_closed] at hc
  rw [index_entry_eq_closed]
  unfold index_entry_closed
  dsimp only
  split_ifs with h1 h2 h3
  · exact ⟨0, by omega, by simp [index_calls], fun h => by cases h⟩
  · exact ⟨0, by omega, by simp [index_calls], fun h => by cases h⟩
  · refine ⟨1, le_refl 1, ?_, fun h => by cases h⟩
    rw [hc, index_calls_succ]
    simp [index_calls]
  · refine ⟨1, le_refl 1, ?_, fun _ => ⟨rfl, rfl, rfl⟩⟩
    dsimp only
    rw [hc, index_calls_succ]
    simp [index_calls]

theorem index_calls_append (input : List Byte) (p : Nat) :
    ∀ a b : Nat, index_calls input p (a + b)
      = index_calls input p a ++ index_calls input (p + 16 * a) b := by
  intro a
  induction a generalizing p with
  | zero =>
    intro b
    simp [index_calls]
  | succ a ih =>
    intro b
    have e : a + 1 + b = (a + b) + 1 := by omega
    have e2 : p + 16 * (a + 1) = p + 16 + 16 * a := by omega
    rw [e, index_calls_succ, index_calls_succ, ih (p + 16) b, e2, List.cons_append]

theorem index_loop_calls (env : Env) (g : Globals) (input : List Byte) :
    ∀ (k p : Nat) (tr : List Event), ∃ j, j ≤ k ∧
      decode_calls (index_loop env g k ⟨input, p, tr⟩).2.trace
        = decode_calls tr ++ index_calls input p j ∧
      ((index_loop env g k ⟨input, p, tr⟩).1 = none → j = k) := by
  intro k
  induction k with
  | zero =>
    intro p tr
    exact ⟨0, le_refl 0, by simp [index_loop, index_calls], fun _ => rfl⟩
  | succ k ih =>
    intro p tr
    obtain ⟨j1, hj1, hc1, hn1⟩ := index_entry_calls env g input p tr
    rcases hie : index_entry env g ⟨input, p, tr⟩ with ⟨_ | r, s1⟩
    · rw [hie] at hc1 hn1
      obtain ⟨rfl, hin, hpos⟩ := hn1 rfl
      have hs1 : s1 = ⟨input, p + 16, s1.trace⟩ := by
        obtain ⟨input1, p1, tr1⟩ := s1
        dsimp only at hin hpos
        rw [hin, hpos]
      obtain ⟨j2, hj2, hc2, hn2⟩ := ih (p + 16) s1.trace
      rw [index_loop_succ_none env g k _ _ hie, hs1]
      dsimp only at hc1
      refine ⟨1 + j2, by omega, ?_, fun h => ?_⟩
      · rw [hc2, hc1, List.append_assoc, index_calls_append input p 1 j2]
      · rw [hn2 h]
        omega
    · rw [hie] at hc1
      rw [index_loop_succ_some env g k _ s1 r hie]
      exact ⟨j1, by omega, hc1, fun h => by cases h⟩

theorem convert_input_tail_calls (env : Env) (r : Option Int) (s : State) :
    decode_calls (convert_input_tail env (r, s)).2.trace = decode_calls s.trace := by
  cases r with
  | some x => rfl
  | none =>
    unfold convert_input_tail
    dsimp only
    split_ifs <;> simp [write_tarblock, log, decode_calls_append, decode_calls]

/-- C16: for every container with an accepted header, with the index table at the
offset `X` read as little-endian 64-bit value at byte 4 and the entry count
`n` read as little-endian 32-bit value at `X`, the calls of `convert_file` made
by `convert_input` are, in order, those for the entries `0 .. j - 1` reached by
the walk (all `n` of them when the run does not fail): for entry `i` the
checksum is the little-endian 64-bit value at `X + 4 + 16 * i` and the position
is the little-endian 64-bit value at `X + 12 + 16 * i` converted to `long`,
which is that value itself when it is below 2^63.  The order is the index
order, whatever the record offsets are. -/
theorem records_decoded_in_index_order (env : Env) (g : Globals) (input : List Byte)
    (hh : header_ok env input) :
    table_pos input = ∑ i in Finset.range 8, (input.getD (4 + i) 0).val * 256 ^ i ∧
    entry_count input
      = ∑ i in Finset.range 4, (input.getD (table_pos input + i) 0).val * 256 ^ i ∧
    ∃ j, j ≤ entry_count input ∧
      decode_calls (convert_input env g (start input)).2.trace
        = (List.range j).map (fun i =>
            (to_long (field input (table_pos input + 12 + 16 * i) 8),
              field input (table_pos input + 4 + 16 * i) 8)) ∧
      (0 ≤ (convert_input env g (start input)).1 → j = entry_count input) ∧
      (∀ i, i < j → field input (table_pos input + 12 + 16 * i) 8 < 2 ^ 63 →
        to_long (field input (table_pos input + 12 + 16 * i) 8)
          = (field input (table_pos input + 12 + 16 * i) 8 : Int)) := by
  refine ⟨field_eq_sum input 4 8 (by have := hh.1; omega),
    field_eq_sum input (table_pos input) 4 hh.2.2.2.2, ?_⟩
  suffices hmain : ∃ j, j ≤ entry_count input ∧
      decode_calls (convert_input env g (start input)).2.trace
        = (List.range j).map (fun i =>
            (to_long (field input (table_pos input + 12 + 16 * i) 8),
              field input (table_pos input + 4 + 16 * i) 8)) ∧
      (0 ≤ (convert_input env g (start input)).1 → j = entry_count input) by
    obtain ⟨j, h1, h2, h3⟩ := hmain
    exact ⟨j, h1, h2, h3, fun i _ hlt => to_long_of_lt _ hlt⟩
  obtain ⟨j, hj, hc, hn⟩ := index_loop_calls env g input (entry_count input)
    (table_pos input + 4) []
  obtain ⟨evs, _, _, hneg⟩ := index_loop_no_tarblock env g (entry_count input)
    ⟨input, table_pos input + 4, []⟩
  refine ⟨j, hj, ?_, fun hok => ?_⟩
  · unfold start
    rw [convert_input_header_ok env g input [] hh]
    rcases hl : index_loop env g (entry_count input) ⟨input, table_pos input + 4, []⟩
      with ⟨r, s1⟩
    rw [hl] at hc
    rw [convert_input_tail_calls env r s1, hc]
    unfold index_calls
    simp only [decode_calls, List.nil_append]
  · unfold start at hok
    rw [convert_input_header_ok env g input [] hh] at hok
    rcases hl : index_loop env g (entry_count input) ⟨input, table_pos input + 4, []⟩
      with ⟨_ | x, s1⟩
    · rw [hl] at hn
      exact hn rfl
    · rw [hl] at hneg hok
      have hx := hneg x rfl
      unfold convert_input_tail at hok
      dsimp only at hok
      exact absurd hx (not_lt.mpr hok)

theorem records_decoded_in_index_order_witness :
    ∃ j, j ≤ entry_count (sample_container 1 0 1) ∧
      decode_calls
        (convert_input (sample_env false 0) ⟨0, false, false⟩
          (start (sample_container 1 0 1))).2.trace
        = (List.range j).map (fun i =>
            (to_long (field (sample_container 1 0 1)
                (table_pos (sample_container 1 0 1) + 12 + 16 * i) 8),
              field (sample_container 1 0 1)
                (table_pos (sample_container 1 0 1) + 4 + 16 * i) 8)) ∧
      (0 ≤ (convert_input (sample_env false 0) ⟨0, false, false⟩
          (start (sample_container 1 0 1))).1 → j = entry_count (sample_container 1 0 1)) := by
  obtain ⟨j, h1, h2, h3, _⟩ := (records_decoded_in_index_order (sample_env false 0)
    ⟨0, false, false⟩ (sample_container 1 0 1) (by decide)).2.2
  exact ⟨j, h1, h2, h3⟩


/-! ## The output left by an aborted run -/

theorem archive_entries_cons (e : Event) (tr : List Event) :
    archive_entries (e :: tr) = archive_entries [e] ++ archive_entries tr := by
  cases e with
  | write file ret =>
    by_cases h : ret < 0 <;> simp [archive_entries, h]
  | convert pos checksum => simp [archive_entries]
  | malloc size ok => simp [archive_entries]
  | free => simp [archive_entries]
  | prepare file ret => simp [archive_entries]
  | tarblock block ret => simp [archive_entries]

theorem archive_entries_append (a b : List Event) :
    archive_entries (a ++ b) = archive_entries a ++ archive_entries b := by
  induction a with
  | nil => simp [archive_entries]
  | cons e a ih =>
    rw [List.cons_append, archive_entries_cons, archive_entries_cons e a, ih, List.append_assoc]

/-- The archive entries among the events of completed passes are the expected ones. -/
theorem archive_entries_completed_walk (env : Env) (input : List Byte) :
    ∀ (k p : Nat) (tr : List Event),
      archive_entries (completed_walk_events env input k p tr)
        = expected_entries env input k p tr := by
  intro k
  induction k with
  | zero =>
    intro p tr
    rfl
  | succ k ih =>
    intro p tr
    unfold completed_walk_events expected_entries
    rw [archive_entries_append, ih]
    congr 1
    unfold completed_pass_events
    dsimp only
    by_cases hz : (record_at input (field input p 8) (field input (p + 8) 8)).size = 0
    · simp [hz, archive_entries]
    · by_cases hp : (env.prepare_file
          (tr ++ [Event.convert (↑(field input (p + 8) 8)) (field input p 8),
            Event.malloc (record_at input (field input p 8) (field input (p + 8) 8)).size true])
          (record_at input (field input p 8) (field input (p + 8) 8))).1 < 0
      · have hp' := not_le.mpr hp
        simp [hz, hp, hp', archive_entries]
      · have hp' := not_lt.mp hp
        by_cases hw : env.write_file
            (tr ++ [Event.convert (↑(field input (p + 8) 8)) (field input p 8),
                Event.malloc (record_at input (field input p 8) (field input (p + 8) 8)).size
                  true] ++
              [Event.prepare (record_at input (field input p 8) (field input (p + 8) 8))
                (env.prepare_file
                  (tr ++ [Event.convert (↑(field input (p + 8) 8)) (field input p 8),
                    Event.malloc
                      (record_at input (field input p 8) (field input (p + 8) 8)).size true])
                  (record_at input (field input p 8) (field input (p + 8) 8))).1])
            (env.prepare_file
              (tr ++ [Event.convert (↑(field input (p + 8) 8)) (field input p 8),
                Event.malloc (record_at input (field input p 8) (field input (p + 8) 8)).size
                  true])
              (record_at input (field input p 8) (field input (p + 8) 8))).2 < 0
        · have hw' := not_le.mpr hw
          simp only [hz, hp, hp', hw, hw', if_false, archive_entries, if_true, and_false,
            and_true, ne_eq, not_false_eq_true]
        · have hw' := not_lt.mp hw
          simp only [hz, hp, hp', hw, hw', if_false, archive_entries, if_true, and_self,
            and_true, ne_eq, not_false_eq_true]


/-- A record decode that does not fail leaves the events of a completed pass. -/
theorem convert_file_closed_ok_trace (env : Env) (g : Globals) (input : List Byte)
    (c t p0 : Nat) (tr : List Event) (h64 : t < 2 ^ 64)
    (hok : ¬ (convert_file_closed env g (to_long t) c ⟨input, p0, tr⟩).1 < 0) :
    (convert_file_closed env g (to_long t) c ⟨input, p0, tr⟩).2.trace
      = tr ++ completed_pass_events env input tr c t := by
  by_cases ht : t < 2 ^ 63
  · have hneg : ¬ ((t : Int) < 0) := by omega
    rw [to_long_of_lt t ht] at hok ⊢
    unfold convert_file_closed at hok ⊢
    unfold completed_pass_events
    simp only [hneg, if_false, Int.toNat_ofNat] at hok ⊢
    by_cases h21 : input.length < t + 21
    · rw [if_pos h21] at hok
      exact absurd neg_EIO_lt hok
    rw [if_neg h21] at hok ⊢
    by_cases hz : (record_at input c t).size = 0
    · rw [if_pos hz, if_pos hz]
    rw [if_neg hz] at hok ⊢
    rw [if_neg hz]
    by_cases hm : env.malloc (tr ++ [Event.convert (t : Int) c]) (record_at input c t).size = false
    · rw [if_pos hm] at hok
      exact absurd neg_ENOMEM_lt hok
    rw [if_neg hm] at hok ⊢
    by_cases hp : input.length < t + 21 + (record_at input c t).size
    · rw [if_pos hp] at hok
      exact absurd neg_EIO_lt hok
    rw [if_neg hp] at hok ⊢
    simp only [List.append_assoc, List.singleton_append, List.cons_append, List.nil_append]
    split_ifs <;> rfl
  · have hn := to_long_neg t (by omega) h64
    unfold convert_file_closed at hok
    dsimp only at hok
    rw [if_pos hn] at hok
    exact absurd (Int.negSucc_lt_zero 0) hok

/-- A pass of the index walk that reaches its end leaves the cursor at the next
entry and adds the events of a completed pass. -/
theorem index_entry_completed (env : Env) (g : Globals) (input : List Byte) (p : Nat)
    (tr : List Event) (s1 : State) (h : index_entry env g ⟨input, p, tr⟩ = (none, s1)) :
    s1 = ⟨input, p + 16,
      tr ++ completed_pass_events env input tr (field input p 8) (field input (p + 8) 8)⟩ := by
  rw [index_entry_eq_closed] at h
  unfold index_entry_closed at h
  dsimp only at h
  split_ifs at h with h1 h2 h3
  · cases h
  · cases h
  · cases h
  · have hs := (Prod.mk.inj h).2
    rw [← hs, convert_file_closed_ok_trace env g input _ _ _ tr (field_8_lt input (p + 8)) h3]

theorem completed_walk_events_succ (env : Env) (input : List Byte) (k p : Nat)
    (tr : List Event) :
    completed_walk_events env input (k + 1) p tr
      = completed_pass_events env input tr (field input p 8) (field input (p + 8) 8) ++
        completed_walk_events env input k (p + 16)
          (tr ++ completed_pass_events env input tr (field input p 8)
            (field input (p + 8) 8)) :=
  rfl

theorem index_loop_completed (env : Env) (g : Globals) (input : List Byte) :
    ∀ (k p : Nat) (tr : List Event) (sk : State),
      index_loop env g k ⟨input, p, tr⟩ = (none, sk) →
      sk = ⟨input, p + 16 * k, tr ++ completed_walk_events env input k p tr⟩ := by
  intro k
  induction k with
  | zero =>
    intro p tr sk h
    have hs := (Prod.mk.inj h).2
    rw [← hs]
    simp [completed_walk_events]
  | succ k ih =>
    intro p tr sk h
    rcases hie : index_entry env g ⟨input, p, tr⟩ with ⟨_ | r, s1⟩
    · rw [index_loop_succ_none env g k _ s1 hie] at h
      have hs1 := index_entry_completed env g input p tr s1 hie
      rw [hs1] at h
      have := ih _ _ sk h
      have e : p + 16 * (k + 1) = p + 16 + 16 * k := by omega
      rw [this, completed_walk_events_succ, e, List.append_assoc]
    · rw [index_loop_succ_some env g k _ s1 r hie] at h
      cases h

/-- A record decode that fails adds no archive entry to the output. -/
theorem convert_file_closed_fail_entries (env : Env) (g : Globals) (pos : Int) (c : Nat)
    (s : State) (hf : (convert_file_closed env g pos c s).1 < 0) :
    ∃ evs, (convert_file_closed env g pos c s).2.trace = s.trace ++ evs ∧
      archive_entries evs = [] := by
  unfold convert_file_closed at hf ⊢
  dsimp only at hf ⊢
  split_ifs at hf ⊢ with h1 h2 h3 h4 h5 h6 h7 h8
  all_goals
    try simp only [List.append_assoc, List.singleton_append, List.cons_append,
      List.nil_append] at *
  all_goals
    first
      | exact ⟨_, rfl, rfl⟩
      | exact absurd hf (by decide)
      | (refine ⟨_, rfl, ?_⟩
         simp only [archive_entries, hf, if_true])

theorem index_entry_abort_entries (env : Env) (g : Globals) (s s' : State) (r : Int)
    (h : index_entry env g s = (some r, s')) :
    ∃ evs, s'.trace = s.trace ++ evs ∧ archive_entries evs = [] := by
  rw [index_entry_eq_closed] at h
  unfold index_entry_closed at h
  dsimp only at h
  split_ifs at h with h1 h2 h3
  · have hs := (Prod.mk.inj h).2
    rw [← hs]
    exact ⟨[], (List.append_nil _).symm, rfl⟩
  · have hs := (Prod.mk.inj h).2
    rw [← hs]
    exact ⟨[], (List.append_nil _).symm, rfl⟩
  · have hs := (Prod.mk.inj h).2
    rw [← hs]
    exact convert_file_closed_fail_entries env g _ _ _ h3
  · cases h


/-- C17: when `convert_input` aborts while processing index entry `k` of an
accepted container (the passes over entries `0 .. k - 1` reached their end
and the pass over entry `k` returned), it returns that pass's negative result;
the trace of the completed passes is left in place and only extended; the
aborted pass adds no archive entry; the archive entries in the output are
exactly those of the successfully prepared and written records among entries
`0 .. k - 1`, in index order; and no end-of-archive block has been written. -/
theorem aborted_run_output (env : Env) (g : Globals) (input : List Byte) (k m : Nat)
    (sk s' : State) (r : Int)
    (hh : header_ok env input) (hn : entry_count input = k + (m + 1))
    (hreach : index_loop env g k ⟨input, table_pos input + 4, []⟩ = (none, sk))
    (hab : index_entry env g sk = (some r, s')) :
    convert_input env g (start input) = (r, s') ∧ r < 0 ∧
    sk.trace = completed_walk_events env input k (table_pos input + 4) [] ∧
    (∃ evs, s'.trace = sk.trace ++ evs ∧ archive_entries evs = []) ∧
    archive_entries (convert_input env g (start input)).2.trace
      = expected_entries env input k (table_pos input + 4) [] ∧
    (∀ b x, Event.tarblock b x ∉ (convert_input env g (start input)).2.trace) := by
  have hci := convert_input_abort_at env g input k m sk s' r hh hn hreach hab
  have hsk := index_loop_completed env g input k (table_pos input + 4) [] sk hreach
  have htr : sk.trace = completed_walk_events env input k (table_pos input + 4) [] := by
    rw [hsk]
    simp
  obtain ⟨evs, he, ha⟩ := index_entry_abort_entries env g sk s' r hab
  obtain ⟨evs1, he1, hn1, hx1⟩ := index_entry_no_tarblock env g sk
  obtain ⟨evs0, he0, hn0, _⟩ := index_loop_no_tarblock env g k ⟨input, table_pos input + 4, []⟩
  rw [hab] at he1 hx1
  rw [hreach] at he0
  dsimp only at he1 he0
  refine ⟨hci, hx1 r rfl, htr, ⟨evs, he, ha⟩, ?_, ?_⟩
  · rw [hci]
    dsimp only
    rw [he, archive_entries_append, ha, List.append_nil, htr,
      archive_entries_completed_walk]
  · intro b x hmem
    rw [hci] at hmem
    dsimp only at hmem
    rw [he1, he0] at hmem
    simp only [List.nil_append, List.mem_append] at hmem
    rcases hmem with h | h
    · exact hn0 b x h
    · exact hn1 b x h

theorem aborted_run_output_witness :
    archive_entries
      (convert_input (sample_env false 0) ⟨0, false, false⟩
        (start sample_container_short_index)).2.trace
      = expected_entries (sample_env false 0) sample_container_short_index 2 61 [] :=
  (aborted_run_output (sample_env false 0) ⟨0, false, false⟩ sample_container_short_index 2 0
    (index_loop (sample_env false 0) ⟨0, false, false⟩ 2
      ⟨sample_container_short_index, 61, []⟩).2
    (index_entry (sample_env false 0) ⟨0, false, false⟩
      (index_loop (sample_env false 0) ⟨0, false, false⟩ 2
        ⟨sample_container_short_index, 61, []⟩).2).2
    (- EINVAL) (by decide) (by decide) (by decide) (by decide)).2.2.2.2.1

theorem scan_long_size (longopts : List long_option) (name : CString) (rest : List CString) :
    argv_size (scan_long longopts name rest).2.2 ≤ argv_size rest := by
  unfold scan_long
  split
  · exact le_refl _
  · split
    · split
      · exact le_refl _
      · simp only [argv_size]
        omega
      · exact le_refl _
    · split
      · exact le_refl _
      · exact le_refl _

theorem scan_short_size (shortopts : CString) (c : Char) (more : CString)
    (rest : List CString) :
    argv_size (scan_short shortopts c more rest).2.2 ≤ more.length + 2 + argv_size rest := by
  unfold scan_short
  split
  · by_cases hm : more = []
    · simp only [hm, if_true, List.length_nil]
      omega
    · simp only [hm, if_false, argv_size, List.length_cons]
      omega
  · by_cases hm : more = []
    · simp only [hm, if_true, List.length_nil]
      omega
    · simp only [hm, if_false, argv_size, List.length_cons]
      omega
  · split_ifs
    · dsimp only
      omega
    · split
      · simp only [argv_size]
        omega
      · simp only [argv_size]
        omega

/-- Every call of `getopt_long` that returns an option consumes part of the
arguments. -/
theorem getopt_long_size (shortopts : CString) (longopts : List long_option) :
    ∀ (argv : List CString) (o : Char) (optarg : CString) (rest : List CString),
      getopt_long shortopts longopts argv = some (o, optarg, rest) →
      argv_size rest < argv_size argv := by
  intro argv
  induction argv with
  | nil =>
    intro o optarg rest h
    simp [getopt_long] at h
  | cons arg rest0 ih =>
    intro o optarg rest h
    unfold getopt_long at h
    split at h
    next c0 c1 more =>
      split_ifs at h
      · have e := Option.some.inj h
        have hs := scan_long_size longopts more rest0
        rw [e] at hs
        simp only [argv_size, List.length_cons]
        dsimp only at hs
        omega
      · have e := Option.some.inj h
        have hs := scan_short_size shortopts c1 more rest0
        rw [e] at hs
        simp only [argv_size, List.length_cons]
        dsimp only at hs
        omega
      · have := ih o optarg rest h
        simp only [argv_size]
        omega
    next =>
      have := ih o optarg rest h
      simp only [argv_size]
      omega

theorem init_loop_total (ienv : InitEnv) :
    ∀ (fuel : Nat) (argv : List CString) (globals : all_globals),
      argv_size argv < fuel → ∃ r, init_loop ienv fuel argv globals = some r := by
  intro fuel
  induction fuel with
  | zero =>
    intro argv globals h
    omega
  | succ fuel ih =>
    intro argv globals h
    unfold init_loop
    rcases hg : getopt_long optstring long_options argv with _ | ⟨o, optarg, rest⟩
    · dsimp only
      split_ifs
      · exact ⟨_, rfl⟩
      · exact ⟨_, rfl⟩
    · have hs := getopt_long_size optstring long_options argv o optarg rest hg
      have hf : argv_size rest < fuel := by omega
      dsimp only
      split
      · exact ih _ _ hf
      · split_ifs
        · exact ih _ _ hf
        · exact ⟨_, rfl⟩
      · exact ⟨_, rfl⟩
      · split_ifs
        · exact ih _ _ hf
        · exact ih _ _ hf
        · exact ⟨_, rfl⟩
      · exact ih _ _ hf
      · exact ih _ _ hf
      · split_ifs
        · exact ih _ _ hf
        · exact ⟨_, rfl⟩
      · split_ifs
        · exact ih _ _ hf
        · exact ⟨_, rfl⟩
      · exact ⟨_, rfl⟩

/-- The fuel of `init` always suffices: every call of `init` returns or exits. -/
theorem init_total (ienv : InitEnv) (argv : List CString) :
    ∃ r, init ienv argv = some r :=
  init_loop_total ienv _ _ _ (Nat.lt_succ_self _)


/-! ## The long option `--type` -/

/-- For the long option `--type` followed by an argument, `getopt_long` returns
the value stored in its row of `long_options`, which is `p`. -/
theorem getopt_long_type (arg : CString) (rest : List CString) :
    getopt_long optstring long_options ("--type".toList :: arg :: rest)
      = some ('p', arg, rest) := by
  rfl

/-- For the short option `-t` followed by an argument, `getopt_long` returns `t`. -/
theorem getopt_short_type (arg : CString) (rest : List CString) :
    getopt_long optstring long_options ("-t".toList :: arg :: rest)
      = some ('t', arg, rest) := by
  rfl

/-- C13 (the code departs from the claim): `init` handles `--type` like `-p` and
not like `-t`.  With `--input in.hts --type tex` it returns 0 with the
file-name prefix set to `tex` and the input type still 0, whereas `-t tex` sets
the input type to `INPUT_TEX` (1 here) and leaves the prefix `NULL`; and with
`--type bogus` it returns 0 with prefix `bogus`, whereas `-t bogus` makes it
fail with `-EINVAL`. -/
theorem long_type_option_sets_prefix :
    init sample_init_env
        (["gliden64_texstream_extract", "--input", "in.hts", "--type", "tex"].map String.toList)
      = some (init_result.returned 0
          ⟨0, some "tex".toList, 0, false, false, some "in.hts".toList, out_stream.stdout⟩) ∧
    init sample_init_env
        (["gliden64_texstream_extract", "--input", "in.hts", "-t", "tex"].map String.toList)
      = some (init_result.returned 0
          ⟨0, none, 1, false, false, some "in.hts".toList, out_stream.stdout⟩) ∧
    init sample_init_env
        (["gliden64_texstream_extract", "--input", "in.hts", "--type", "bogus"].map String.toList)
      = some (init_result.returned 0
          ⟨0, some "bogus".toList, 0, false, false, some "in.hts".toList, out_stream.stdout⟩) ∧
    init sample_init_env
        (["gliden64_texstream_extract", "--input", "in.hts", "-t", "bogus"].map String.toList)
      = some (init_result.returned (- EINVAL)
          ⟨0, none, 0, false, false, some "in.hts".toList, out_stream.stdout⟩) := by
  decide

/-! ## The number of archive entries of a valid container -/

/-- One pass over a readable entry whose record is readable, can be allocated
and is either prepared or skipped under `ignore_error`, with an entry writer
that never fails: the pass reaches its end with the events of a completed
pass, among which the record is either handed to the writer or counted as a
failed preparation. -/
theorem index_entry_pass (env : Env) (g : Globals) (input : List Byte)
    (hlen : input.length < 2 ^ 63) (hw : ∀ tr f, 0 ≤ env.write_file tr f)
    (p c t : Nat) (tr : List Event) (h16 : p + 16 ≤ input.length)
    (hc : field input p 8 = c) (ht : field input (p + 8) 8 = t)
    (hr : record_readable input t)
    (hm : env.malloc (tr ++ [Event.convert (t : Int) c]) (field input (t + 17) 4) = true)
    (hp : g.ignore_error = true ∨ 0 ≤ prepare_result env input tr c t) :
    index_entry env g ⟨input, p, tr⟩
      = (none, ⟨input, p + 16, tr ++ completed_pass_events env input tr c t⟩) ∧
    entries_written (completed_pass_events env input tr c t)
      + preparations_failed (completed_pass_events env input tr c t) = 1 ∧
    (g.ignore_error = false →
      preparations_failed (completed_pass_events env input tr c t) = 0) := by
  have h00 : ¬ (0 : Int) < 0 := by decide
  have hnone : (index_entry env g ⟨input, p, tr⟩).1 = none := by
    rw [index_entry_readable env g input p tr hlen h16, hc, ht,
      convert_file_readable env g input c t (p + 16) tr hr hm]
    dsimp only
    by_cases hpr : (env.prepare_file
        (tr ++ [Event.convert (t : Int) c, Event.malloc (record_at input c t).size true])
        (record_at input c t)).1 < 0
    · have hig : g.ignore_error = true := by
        rcases hp with h | h
        · exact h
        · exact absurd hpr (not_lt.mpr h)
      simp only [hpr, hig, if_true, h00, if_false]
    · have hwr := not_lt.mpr (hw
        (tr ++ [Event.convert (t : Int) c, Event.malloc (record_at input c t).size true] ++
          [Event.prepare (record_at input c t)
            (env.prepare_file
              (tr ++ [Event.convert (t : Int) c, Event.malloc (record_at input c t).size true])
              (record_at input c t)).1])
        (env.prepare_file
          (tr ++ [Event.convert (t : Int) c, Event.malloc (record_at input c t).size true])
          (record_at input c t)).2)
      simp only [hpr, hwr, if_false, h00]
  have hpass : index_entry env g ⟨input, p, tr⟩
      = (none, ⟨input, p + 16, tr ++ completed_pass_events env input tr c t⟩) := by
    rcases hie : index_entry env g ⟨input, p, tr⟩ with ⟨r, s1⟩
    rw [hie] at hnone
    dsimp only at hnone
    subst hnone
    have hs1 := index_entry_completed env g input p tr s1 hie
    rw [hc, ht] at hs1
    rw [hs1]
  have hz : ¬ (record_at input c t).size = 0 := by
    have := hr.2.2.1
    exact Nat.pos_iff_ne_zero.mp this
  refine ⟨hpass, ?_, ?_⟩
  · unfold completed_pass_events
    dsimp only
    rw [if_neg hz]
    split_ifs with hpr
    · simp [entries_written, preparations_failed, hpr]
    · simp [entries_written, preparations_failed, hpr]
  · intro hig
    have hpr : ¬ prepare_result env input tr c t < 0 := by
      rcases hp with h | h
      · rw [hig] at h
        cases h
      · exact not_lt.mpr h
    unfold prepare_result trace_at_prepare at hpr
    unfold completed_pass_events
    dsimp only
    rw [if_neg hz]
    have hsz : (record_at input c t).size = field input (t + 17) 4 := rfl
    rw [← hsz] at hpr
    rw [if_neg hpr]
    simp [preparations_failed, hpr]

/-- The walk over `k` readable entries whose records are readable, can be
allocated and are prepared or skipped, with an entry writer that never fails:
the walk reaches the end of the loop with the events of `k` completed passes,
and each record is either handed to the writer or counted as a failed
preparation. -/
theorem index_loop_passes (env : Env) (g : Globals) (input : List Byte)
    (hlen : input.length < 2 ^ 63) (hw : ∀ tr f, 0 ≤ env.write_file tr f) :
    ∀ (k p : Nat) (tr : List Event), p + 16 * k ≤ input.length →
      (∀ j, j < k → record_readable input (field input (p + 8 + 16 * j) 8)) →
      (∀ j, j < k →
        env.malloc
          (tr ++ completed_walk_events env input j p tr ++
            [Event.convert (field input (p + 8 + 16 * j) 8 : Int) (field input (p + 16 * j) 8)])
          (field input (field input (p + 8 + 16 * j) 8 + 17) 4) = true) →
      (g.ignore_error = true ∨ ∀ j, j < k →
        0 ≤ prepare_result env input (tr ++ completed_walk_events env input j p tr)
          (field input (p + 16 * j) 8) (field input (p + 8 + 16 * j) 8)) →
      index_loop env g k ⟨input, p, tr⟩
        = (none, ⟨input, p + 16 * k, tr ++ completed_walk_events env input k p tr⟩) ∧
      entries_written (completed_walk_events env input k p tr)
        + preparations_failed (completed_walk_events env input k p tr) = k ∧
      (g.ignore_error = false →
        preparations_failed (completed_walk_events env input k p tr) = 0) := by
  intro k
  induction k with
  | zero =>
    intro p tr _ _ _ _
    refine ⟨?_, rfl, fun _ => rfl⟩
    simp [index_loop, completed_walk_events]
  | succ k ih =>
    intro p tr hk hrec hm hp
    have hm0 := hm 0 (by omega)
    have hr0 := hrec 0 (by omega)
    simp only [completed_walk_events, List.append_nil, Nat.mul_zero, Nat.add_zero] at hm0 hr0
    have hp0 : g.ignore_error = true ∨
        0 ≤ prepare_result env input tr (field input p 8) (field input (p + 8) 8) := by
      rcases hp with h | h
      · exact Or.inl h
      · have := h 0 (by omega)
        simp only [completed_walk_events, List.append_nil, Nat.mul_zero, Nat.add_zero] at this
        exact Or.inr this
    obtain ⟨e1, c1, f1⟩ := index_entry_pass env g input hlen hw p (field input p 8)
      (field input (p + 8) 8) tr (by omega) rfl rfl hr0 hm0 hp0
    have shift : ∀ j, tr ++ completed_walk_events env input (j + 1) p tr
        = (tr ++ completed_pass_events env input tr (field input p 8) (field input (p + 8) 8)) ++
          completed_walk_events env input j (p + 16)
            (tr ++ completed_pass_events env input tr (field input p 8)
              (field input (p + 8) 8)) := by
      intro j
      rw [completed_walk_events_succ, List.append_assoc]
    have e8 : ∀ j, p + 8 + 16 * (j + 1) = p + 16 + 8 + 16 * j := by
      intro j
      omega
    have e0 : ∀ j, p + 16 * (j + 1) = p + 16 + 16 * j := by
      intro j
      omega
    obtain ⟨e2, c2, f2⟩ := ih (p + 16)
      (tr ++ completed_pass_events env input tr (field input p 8) (field input (p + 8) 8))
      (by omega)
      (by
        intro j hj
        have h := hrec (j + 1) (by omega)
        rw [e8 j] at h
        exact h)
      (by
        intro j hj
        have h := hm (j + 1) (by omega)
        rw [shift j, e8 j, e0 j] at h
        exact h)
      (by
        rcases hp with h | h
        · exact Or.inl h
        · refine Or.inr (fun j hj => ?_)
          have h' := h (j + 1) (by omega)
          rw [shift j, e8 j, e0 j] at h'
          exact h')
    refine ⟨?_, ?_, ?_⟩
    · rw [index_loop_succ_none env g k _ _ e1, e2, e0 k, completed_walk_events_succ,
        List.append_assoc]
    · rw [completed_walk_events_succ, entries_written_append, preparations_failed_append]
      omega
    · intro hig
      rw [completed_walk_events_succ, preparations_failed_append, f1 hig, f2 hig]

/-- C4 (amended): for every valid container (shorter than 2^63 bytes, header
accepted with a capability bit set, index table and all records fully
readable, every payload size positive) and an entry writer that never fails,
when no allocation of a payload buffer for a record of the container fails and
either `ignore_error` is set or no record's preparation fails, the number of
archive entries `convert_input` hands to the entry writer equals the index
entry count minus the number of records skipped under `ignore_error`. -/
theorem convert_input_entry_count (env : Env) (g : Globals) (input : List Byte)
    (hv : container_valid env input) (hw : ∀ tr f, 0 ≤ env.write_file tr f)
    (hm : ∀ i, i < entry_count input → allocation_succeeds env input i)
    (hp : g.ignore_error = true ∨
      ∀ i, i < entry_count input → preparation_succeeds env input i) :
    entries_written (convert_input env g (start input)).2.trace
      = entry_count input - records_skipped g (convert_input env g (start input)).2.trace ∧
    entries_written (convert_input env g (start input)).2.trace
      + records_skipped g (convert_input env g (start input)).2.trace = entry_count input := by
  obtain ⟨hlen, hh, htab, hrec⟩ := hv
  obtain ⟨e1, w1, f1⟩ := index_loop_passes env g input hlen hw
    (entry_count input) (table_pos input + 4) [] htab hrec
    (by
      intro j hj
      have h := hm j hj
      unfold allocation_succeeds trace_before_entry entry_offset entry_checksum at h
      rw [List.nil_append]
      exact h)
    (by
      rcases hp with h | h
      · exact Or.inl h
      · refine Or.inr (fun j hj => ?_)
        have h' := h j hj
        unfold preparation_succeeds trace_before_entry entry_offset entry_checksum at h'
        rw [List.nil_append]
        exact h')
  rw [List.nil_append] at e1
  have ht := convert_input_tail_counts env
    ⟨input, table_pos input + 4 + 16 * entry_count input,
      completed_walk_events env input (entry_count input) (table_pos input + 4) []⟩
  unfold start
  rw [convert_input_header_ok env g input [] hh, e1, ht.1]
  unfold records_skipped
  rw [ht.2]
  dsimp only
  cases hg : g.ignore_error with
  | true =>
    simp only [if_true]
    omega
  | false =>
    have := f1 hg
    simp only [Bool.false_eq_true, if_false]
    omega

theorem convert_input_entry_count_witness :
    entries_written
      (convert_input (sample_env false 0) ⟨0, false, false⟩ (start (sample_container 1 0 1))).2.trace
      + records_skipped ⟨0, false, false⟩
        (convert_input (sample_env false 0) ⟨0, false, false⟩
          (start (sample_container 1 0 1))).2.trace
      = entry_count (sample_container 1 0 1) :=
  (convert_input_entry_count (sample_env false 0) ⟨0, false, false⟩ (sample_container 1 0 1)
    (by decide) (fun _ _ => le_refl _) (by decide) (Or.inr (by decide))).2

/-- C4 as stated fails, in two ways.  First, the sample container is valid,
allocation and the entry writer never fail, but with `ignore_error` clear the
preparation failure on the first listed record aborts the walk, so no entry is
handed to the writer although the index lists two entries and no record was
skipped.  Second, the sample container whose records are all accepted by the
preparer is valid and the entry writer never fails, but when the allocation of
the payload buffer fails the walk is aborted as well, even with `ignore_error`
set: again no entry is handed to the writer, the index lists two entries and
no record was skipped. -/
theorem convert_input_entry_count_counterexample :
    (container_valid (sample_env false 0) (sample_container 1 7 1) ∧
      (∀ tr n, (sample_env false 0).malloc tr n = true) ∧
      (∀ tr f, 0 ≤ (sample_env false 0).write_file tr f) ∧
      entries_written
        (convert_input (sample_env false 0) ⟨0, false, false⟩
          (start (sample_container 1 7 1))).2.trace = 0 ∧
      entry_count (sample_container 1 7 1)
        - records_skipped ⟨0, false, false⟩
          (convert_input (sample_env false 0) ⟨0, false, false⟩
            (start (sample_container 1 7 1))).2.trace = 2) ∧
    (container_valid sample_env_no_memory (sample_container 1 0 1) ∧
      (∀ tr f, 0 ≤ sample_env_no_memory.write_file tr f) ∧
      (∀ i, i < entry_count (sample_container 1 0 1) →
        preparation_succeeds sample_env_no_memory (sample_container 1 0 1) i) ∧
      entries_written
        (convert_input sample_env_no_memory ⟨0, true, false⟩
          (start (sample_container 1 0 1))).2.trace = 0 ∧
      entry_count (sample_container 1 0 1)
        - records_skipped ⟨0, true, false⟩
          (convert_input sample_env_no_memory ⟨0, true, false⟩
            (start (sample_container 1 0 1))).2.trace = 2) :=
  ⟨⟨by decide, fun _ _ => rfl, fun _ _ => le_refl _, by decide, by decide⟩,
    ⟨by decide, fun _ _ => le_refl _, by decide, by decide, by decide⟩⟩


/-! ## Record offsets as `long` -/

/-- Every preparer call in a run of `convert_file` is made for a non-negative
offset at which header and payload lie inside the stream, with the record that
lies at that offset. -/
theorem convert_file_prepare_events_readable (env : Env) (g : Globals) (pos : Int)
    (checksum : Nat) (s : State) :
    ∃ evs, (convert_file env g pos checksum s).2.trace
        = s.trace ++ Event.convert pos checksum :: evs ∧
      ∀ f r, Event.prepare f r ∈ evs →
        0 ≤ pos ∧ f = record_at s.input checksum pos.toNat ∧
        pos.toNat + 21 + field s.input (pos.toNat + 17) 4 ≤ s.input.length := by
  rw [convert_file_eq_closed]
  unfold convert_file_closed
  dsimp only
  split_ifs with h1 h2 h3 h4 h5
  all_goals
    try simp only [List.append_assoc, List.singleton_append, List.cons_append,
      List.nil_append] at *
    refine ⟨_, rfl, ?_⟩
    intro f r h
    first
      | (simp only [List.mem_cons, List.mem_singleton, List.not_mem_nil, reduceCtorEq, false_or,
          or_false, Event.prepare.injEq] at h
         done)
      | (simp only [List.mem_cons, List.mem_singleton, List.not_mem_nil, reduceCtorEq, false_or,
          or_false, Event.prepare.injEq] at h
         exact ⟨not_lt.mp h1, h.1, not_lt.mp h5⟩)

/-- C18: with `long` as a 64-bit two's complement integer and a seek to a
negative offset failing, for every 64-bit record offset `t` of an index entry
passed to `convert_file` after conversion to `long`.  Below 2^63, with the
record header inside the stream, the value passed is `t` itself and
`convert_file` decodes at exactly `t`: it logs the call with `t`, reads the 21
header bytes from `t` on and then the payload, so that the cursor ends at
`t + 21` when the size is 0 or the allocation fails and otherwise behind the
payload bytes that were read; and it hands the record at `t` to the preparer
when that record is readable and its buffer allocated.  Below 2^63 with the
header not inside the stream the decode fails.  From 2^63 on the value passed
is negative, the seek is rejected and `convert_file` returns the seek's
result having decoded nothing.  In every case each record the preparer
receives was decoded at the offset `t` of its index entry, which is then below
2^63 and has header and payload inside the stream. -/
theorem record_offset_as_long (env : Env) (g : Globals) (c t : Nat) (s : State)
    (h64 : t < 2 ^ 64) :
    (t < 2 ^ 63 → t + 21 ≤ s.input.length →
      to_long t = (t : Int) ∧
      (convert_file env g (to_long t) c s).2.input = s.input ∧
      (convert_file env g (to_long t) c s).2.pos
        = (if field s.input (t + 17) 4 = 0 ∨
              env.malloc (s.trace ++ [Event.convert (t : Int) c]) (field s.input (t + 17) 4)
                = false
            then t + 21
            else min (t + 21 + field s.input (t + 17) 4) s.input.length) ∧
      (record_readable s.input t →
        env.malloc (s.trace ++ [Event.convert (t : Int) c]) (field s.input (t + 17) 4) = true →
        ∃ r, Event.prepare (record_at s.input c t) r
          ∈ (convert_file env g (to_long t) c s).2.trace)) ∧
    (t < 2 ^ 63 → s.input.length < t + 21 →
      (convert_file env g (to_long t) c s).1 < 0) ∧
    (2 ^ 63 ≤ t → to_long t < 0 ∧
      convert_file env g (to_long t) c s
        = (-1, ⟨s.input, s.pos, s.trace ++ [Event.convert (to_long t) c]⟩)) ∧
    (∃ evs, (convert_file env g (to_long t) c s).2.trace
        = s.trace ++ Event.convert (to_long t) c :: evs ∧
      ∀ f r, Event.prepare f r ∈ evs →
        t < 2 ^ 63 ∧ f = record_at s.input c t ∧
        t + 21 + field s.input (t + 17) 4 ≤ s.input.length) := by
  obtain ⟨input, p0, tr⟩ := s
  refine ⟨fun h h21 => ?_, fun h h21 => ?_, fun h => ?_, ?_⟩
  · dsimp only at h21
    have hneg : ¬ ((t : Int) < 0) := by omega
    have h21' : ¬ input.length < t + 21 := by omega
    refine ⟨to_long_of_lt t h, ?_, ?_, ?_⟩
    · rw [convert_file_eq_closed]
      exact convert_file_closed_input env g _ _ _
    · rw [to_long_of_lt t h, convert_file_eq_closed]
      unfold convert_file_closed
      simp only [hneg, h21', if_false, Int.toNat_ofNat, record_at]
      by_cases hz : field input (t + 17) 4 = 0
      · rw [if_pos hz, if_pos (Or.inl hz)]
      · rw [if_neg hz]
        by_cases hm : env.malloc (tr ++ [Event.convert (t : Int) c])
            (field input (t + 17) 4) = false
        · rw [if_pos hm, if_pos (Or.inr hm)]
        · have hor : ¬ (field input (t + 17) 4 = 0 ∨
              env.malloc (tr ++ [Event.convert (t : Int) c]) (field input (t + 17) 4)
                = false) := by
            rintro (h' | h')
            · exact hz h'
            · exact hm h'
          rw [if_neg hm, if_neg hor]
          by_cases hp : input.length < t + 21 + field input (t + 17) 4
          · rw [if_pos hp, Nat.min_eq_right (by omega)]
          · rw [if_neg hp, Nat.min_eq_left (by omega)]
            split_ifs <;> rfl
    · intro hr hm
      have hcf := convert_file_readable env g input c t p0 tr hr hm
      rw [hcf]
      dsimp only
      split_ifs
      all_goals
        dsimp only
        simp
  · dsimp only at h21
    have hcf := convert_file_closed_fails env g input c t p0 tr h64 (Or.inr (Or.inl h21))
    rw [convert_file_eq_closed]
    exact hcf
  · have hn := to_long_neg t h h64
    refine ⟨hn, ?_⟩
    rw [convert_file_eq_closed]
    unfold convert_file_closed
    dsimp only
    rw [if_pos hn]
  · obtain ⟨evs, he, hev⟩ := convert_file_prepare_events_readable env g (to_long t) c
      ⟨input, p0, tr⟩
    refine ⟨evs, he, fun f r h => ?_⟩
    obtain ⟨h0, hf, hl⟩ := hev f r h
    by_cases ht : t < 2 ^ 63
    · rw [to_long_of_lt t ht, Int.toNat_ofNat] at hf hl
      exact ⟨ht, hf, hl⟩
    · exact absurd (to_long_neg t (by omega) h64) (not_lt.mpr h0)

theorem record_offset_as_long_witness :
    (convert_file (sample_env true 0) ⟨0, true, false⟩ (to_long 12) 0x2222
        ⟨sample_container 1 0 1, 93, []⟩).2.pos = 35 ∧
    (∃ r, Event.prepare (record_at (sample_container 1 0 1) 0x2222 12) r
      ∈ (convert_file (sample_env true 0) ⟨0, true, false⟩ (to_long 12) 0x2222
          ⟨sample_container 1 0 1, 93, []⟩).2.trace) ∧
    (to_long (2 ^ 63 + 35) < 0 ∧
      convert_file (sample_env true 0) ⟨0, true, false⟩ (to_long (2 ^ 63 + 35)) 0x1111
          ⟨sample_container 1 0 1, 77, []⟩
        = (-1,
          ⟨sample_container 1 0 1, 77, [Event.convert (to_long (2 ^ 63 + 35)) 0x1111]⟩)) :=
  ⟨(((record_offset_as_long (sample_env true 0) ⟨0, true, false⟩ 0x2222 12
      ⟨sample_container 1 0 1, 93, []⟩ (by decide)).1 (by decide) (by decide)).2.2.1).trans
      (by decide),
    ((record_offset_as_long (sample_env true 0) ⟨0, true, false⟩ 0x2222 12
      ⟨sample_container 1 0 1, 93, []⟩ (by decide)).1 (by decide) (by decide)).2.2.2
      (by decide) rfl,
    (record_offset_as_long (sample_env true 0) ⟨0, true, false⟩ 0x1111 (2 ^ 63 + 35)
      ⟨sample_container 1 0 1, 77, []⟩ (by decide)).2.2.1 (by decide)⟩

end TexStream
